import Mathlib

/-!
# dviglo graphics_api: IndexBuffer and ShaderVariation (OpenGL)

A shallow embedding of `index_buffer.cpp` and `opengl/ogl_shader_variation.cpp`.

* `i32` values are `Int`; arithmetic that can leave the 32-bit range goes through `wrapI32`.
* The shadow data is a list of bytes; a read outside the allocation yields `none`.
* The engine's `String` is a list of characters.
-/

namespace dviglo

/-! ## Machine integers -/

/-- Modelled from the spec: the constant `M_MAX_INT` (math_defs.h) is not among the sources.
It is the largest value of an `i32`. -/
def M_MAX_INT : Int := 2147483647

/-- Two's-complement wrap-around of a mathematical integer into the `i32` range. -/
def wrapI32 (x : Int) : Int := (x + 2147483648) % 4294967296 - 2147483648

/-- One byte of CPU memory. -/
abbrev byte := Fin 256

/-! ## IndexBuffer -/

/-- Modelled from the spec: the enumeration `LockState` (graphics_defs.h) is not among the
sources. It is the buffer locking state: none, hardware, shadow or scratch. -/
inductive LockState where
  | LOCK_NONE
  | LOCK_HARDWARE
  | LOCK_SHADOW
  | LOCK_SCRATCH
  deriving DecidableEq, Repr

/-- Data members of `IndexBuffer` (index_buffer.h). `shadowData_ = none` is the null pointer;
`some bytes` is an allocation holding exactly those bytes. -/
structure IndexBuffer where
  shadowData_ : Option (List byte)
  indexCount_ : Int
  indexSize_ : Int
  lockState_ : LockState
  lockStart_ : Int
  lockCount_ : Int
  lockScratchData_ : Option (List byte)
  dynamic_ : Bool
  shadowed_ : Bool
  discardLock_ : Bool
  deriving DecidableEq, Repr

/-- Constructor `IndexBuffer::IndexBuffer()`; the argument is `GParams::is_headless()`. -/
def IndexBuffer.new (headless : Bool) : IndexBuffer :=
  let b : IndexBuffer :=
    { shadowData_ := none
      indexCount_ := 0
      indexSize_ := 0
      lockState_ := LockState.LOCK_NONE
      lockStart_ := 0
      lockCount_ := 0
      lockScratchData_ := none
      dynamic_ := false
      shadowed_ := false
      discardLock_ := false }
  -- Force shadowing mode if graphics subsystem does not exist
  if headless then { b with shadowed_ := true } else b

/-- The expression `new byte[n]`: an allocation of `n` bytes whose contents are whatever
`junk` says (the memory is not initialised by the program). -/
def newBytes (junk : Nat → byte) (n : Nat) : List byte := (List.range n).map junk

/-- Accessor `IsShadowed()`. -/
def IndexBuffer.IsShadowed (b : IndexBuffer) : Bool := b.shadowed_

/-- Accessor `GetIndexCount()`. -/
def IndexBuffer.GetIndexCount (b : IndexBuffer) : Int := b.indexCount_

/-- Accessor `GetIndexSize()`. -/
def IndexBuffer.GetIndexSize (b : IndexBuffer) : Int := b.indexSize_

/-- Accessor `IsDynamic()`. -/
def IndexBuffer.IsDynamic (b : IndexBuffer) : Bool := b.dynamic_

/-- Accessor `GetShadowData()`. -/
def IndexBuffer.GetShadowData (b : IndexBuffer) : Option (List byte) := b.shadowData_

/-- The method `IndexBuffer::SetShadowed(bool enable)`; `headless` is
`GParams::is_headless()` and `junk` the contents of the memory `new` returns. -/
def IndexBuffer.SetShadowed (headless : Bool) (junk : Nat → byte) (b : IndexBuffer)
    (enable : Bool) : IndexBuffer :=
  -- If no graphics subsystem, can not disable shadowing
  let enable := if headless then true else enable
  if enable ≠ b.shadowed_ then
    let shadow :=
      if enable ∧ b.indexCount_ ≠ 0 ∧ b.indexSize_ ≠ 0 then
        some (newBytes junk (b.indexCount_ * b.indexSize_).toNat)
      else
        none
    { b with shadowData_ := shadow, shadowed_ := enable }
  else b

/-- Modelled from the spec: `IndexBuffer::Unlock_OGL` is not among the sources. Per the
contract of `Unlock` it releases the scratch buffer if one was used and resets the lock state
to none; unlocking while not locked is a no-op. It does not reallocate the shadow data. -/
def IndexBuffer.Unlock (b : IndexBuffer) : IndexBuffer :=
  match b.lockState_ with
  | LockState.LOCK_NONE => b
  | _ => { b with lockState_ := LockState.LOCK_NONE, lockScratchData_ := none }

/-- The method `IndexBuffer::SetSize`. `Create_OGL` is not among the sources: the outcome of
the backend buffer creation is the parameter `created`, the value `Create()` returns (see
`IndexBuffer.Create`). The result is `none` when the assertion `indexCount >= 0` fails. -/
def IndexBuffer.SetSize (junk : Nat → byte) (created : Bool) (b : IndexBuffer)
    (indexCount : Int) (largeIndices dynamic : Bool) : Option (Bool × IndexBuffer) :=
  if ¬ (indexCount ≥ 0) then none
  else
    let b := b.Unlock
    let b := { b with indexCount_ := indexCount
                      indexSize_ := if largeIndices then 4 else 2
                      dynamic_ := dynamic }
    let shadow :=
      if b.shadowed_ ∧ b.indexCount_ ≠ 0 ∧ b.indexSize_ ≠ 0 then
        some (newBytes junk (b.indexCount_ * b.indexSize_).toNat)
      else
        none
    some (created, { b with shadowData_ := shadow })

/-- The read `((u32*)p)[pos]` on a little-endian machine; `none` outside the allocation. -/
def readU32 (data : List byte) (pos : Nat) : Option Nat :=
  match data.drop (4 * pos) with
  | b0 :: b1 :: b2 :: b3 :: _ =>
      some (b0.val + 256 * b1.val + 65536 * b2.val + 16777216 * b3.val)
  | _ => none

/-- The read `((u16*)p)[pos]` on a little-endian machine; `none` outside the allocation. -/
def readU16 (data : List byte) (pos : Nat) : Option Nat :=
  match data.drop (2 * pos) with
  | b0 :: b1 :: _ => some (b0.val + 256 * b1.val)
  | _ => none

/-- The cast `(i32)x` of a `u32` value. -/
def castU32ToI32 (x : Nat) : Int := wrapI32 (x : Int)

/-- The cast `(i32)x` of a `u16` value. -/
def castU16ToI32 (x : Nat) : Int := (x : Int)

/-- The scanning loop `for (i32 i = 0; i < count; ++i)` of `GetUsedVertexRange`: `read i` is
`(i32)indices[i]`, `n` counts the iterations left, and the pair is `(minVertex, maxVertex)`. -/
def scanLoop (read : Nat → Option Int) : Nat → Nat → Int → Int → Option (Int × Int)
  | _, 0, minVertex, maxVertex => some (minVertex, maxVertex)
  | i, n + 1, minVertex, maxVertex =>
    match read i with
    | none => none
    | some index =>
      let minVertex := if index < minVertex then index else minVertex
      let maxVertex := if index > maxVertex then index else maxVertex
      scanLoop read (i + 1) n minVertex maxVertex

/-- What `GetUsedVertexRange` leaves behind: the return value and the two out-parameters. -/
structure VertexRange where
  ret : Bool
  minVertex : Int
  vertexCount : Int
  deriving DecidableEq, Repr

/-- The method `IndexBuffer::GetUsedVertexRange`. `minVertex` and `vertexCount` are the values
the out-parameters hold on entry. The result is `none` when the assertion fails or when the
scan reads outside the shadow allocation. The `i32` sum `start + count` and the `i32`
difference `maxVertex - minVertex + 1` wrap around. -/
def IndexBuffer.GetUsedVertexRange (b : IndexBuffer) (start count minVertex vertexCount : Int) :
    Option VertexRange :=
  if ¬ (start ≥ 0 ∧ count ≥ 0) then none
  else
    match b.shadowData_ with
    | none => some ⟨false, minVertex, vertexCount⟩
    | some data =>
      if wrapI32 (start + count) > b.indexCount_ then some ⟨false, minVertex, vertexCount⟩
      else
        let read : Nat → Option Int :=
          if b.indexSize_ = 4 then
            fun i => (readU32 data (start.toNat + i)).map castU32ToI32
          else
            fun i => (readU16 data (start.toNat + i)).map castU16ToI32
        match scanLoop read 0 count.toNat M_MAX_INT 0 with
        | none => none
        | some (minVertex, maxVertex) =>
          some ⟨true, minVertex, wrapI32 (maxVertex - minVertex + 1)⟩

/-- The little-endian bytes of a 32-bit index value. -/
def bytesU32 (v : Nat) : List byte :=
  [Fin.ofNat v, Fin.ofNat (v / 256), Fin.ofNat (v / 65536), Fin.ofNat (v / 16777216)]

/-- An index buffer after `SetShadowed(true)`, `SetSize(n, true)` and `SetData` of the given
32-bit indices. -/
def buffer32 (indices : List Nat) : IndexBuffer :=
  { IndexBuffer.new false with
    shadowData_ := some (indices.flatMap bytesU32)
    indexCount_ := indices.length
    indexSize_ := 4
    shadowed_ := true }

/-- The shadow data read as a sequence of unsigned 32-bit values. -/
def valuesU32 : List byte → List Nat
  | b0 :: b1 :: b2 :: b3 :: rest =>
    (b0.val + 256 * b1.val + 65536 * b2.val + 16777216 * b3.val) :: valuesU32 rest
  | _ => []

/-- The shadow data read as a sequence of unsigned 16-bit values. -/
def valuesU16 : List byte → List Nat
  | b0 :: b1 :: rest => (b0.val + 256 * b1.val) :: valuesU16 rest
  | _ => []

/-- The unsigned index values held by the shadow data, in order, read according to the
index size. -/
def indexValues (indexSize : Int) (data : List byte) : List Nat :=
  if indexSize = 4 then valuesU32 data else valuesU16 data

/-- The index values at positions `start .. start+count-1` of the shadow data. -/
def windowValues (b : IndexBuffer) (data : List byte) (start count : Int) : List Nat :=
  ((indexValues b.indexSize_ data).drop start.toNat).take count.toNat

/-- Well-formedness of an index buffer: the counters are `i32` values, and shadow data, when
present, belongs to 2- or 4-byte indices and holds `indexCount * indexSize` bytes. -/
structure IndexBuffer.WellFormed (b : IndexBuffer) : Prop where
  count_nonneg : 0 ≤ b.indexCount_
  count_le : b.indexCount_ ≤ M_MAX_INT
  size_ok : ∀ data, b.shadowData_ = some data → b.indexSize_ = 4 ∨ b.indexSize_ = 2
  length_ok : ∀ data, b.shadowData_ = some data →
    (data.length : Int) = b.indexCount_ * b.indexSize_

/-- The outcome of `GetUsedVertexRange` on a window of the shadow data when it reports the
true range: the call returns true, `minVertex` is the least index value of the window and
`vertexCount` is the greatest value - the least value + 1. -/
def IndexBuffer.ReportsTrueRange (b : IndexBuffer) (data : List byte)
    (start count minVertex vertexCount : Int) : Prop :=
  ∃ lo hi : Nat, lo ∈ windowValues b data start count ∧
    hi ∈ windowValues b data start count ∧
    (∀ v ∈ windowValues b data start count, lo ≤ v ∧ v ≤ hi) ∧
    b.GetUsedVertexRange start count minVertex vertexCount =
      some ⟨true, (lo : Int), (hi : Int) - (lo : Int) + 1⟩

/-- A call made on an index buffer: `SetShadowed(enable)` or
`SetSize(indexCount, largeIndices, dynamic)`. Each call carries what the environment
contributes to it: the contents of freshly allocated memory and, for `SetSize`, the outcome
of the backend buffer creation. -/
inductive IndexBufferCall where
  | setShadowed (enable : Bool) (junk : Nat → byte)
  | setSize (indexCount : Int) (largeIndices dynamic : Bool) (created : Bool)
      (junk : Nat → byte)

/-- The precondition of a call: `SetSize` asserts `indexCount >= 0`. -/
def IndexBufferCall.Admissible : IndexBufferCall → Prop
  | IndexBufferCall.setShadowed _ _ => True
  | IndexBufferCall.setSize indexCount _ _ _ _ => 0 ≤ indexCount

/-- One call applied to a buffer; `none` when its assertion fails. -/
def IndexBuffer.call (headless : Bool) (b : IndexBuffer) : IndexBufferCall → Option IndexBuffer
  | IndexBufferCall.setShadowed enable junk => some (b.SetShadowed headless junk enable)
  | IndexBufferCall.setSize indexCount largeIndices dynamic created junk =>
    (b.SetSize junk created indexCount largeIndices dynamic).map (fun r => r.2)

/-- A sequence of calls applied in order. -/
def IndexBuffer.calls (headless : Bool) : IndexBuffer → List IndexBufferCall → Option IndexBuffer
  | b, [] => some b
  | b, c :: cs =>
    match b.call headless c with
    | none => none
    | some b1 => IndexBuffer.calls headless b1 cs

/-- The shadow-buffer invariant: the shadow buffer is allocated exactly when the buffer is
shadowed and both the index count and the index size are positive, and an allocated shadow
buffer holds `indexCount * indexSize` bytes. -/
def IndexBuffer.ShadowInvariant (b : IndexBuffer) : Prop :=
  (b.shadowData_ ≠ none ↔ (b.shadowed_ = true ∧ 0 < b.indexCount_ ∧ 0 < b.indexSize_)) ∧
  ∀ data, b.shadowData_ = some data → (data.length : Int) = b.indexCount_ * b.indexSize_

/-- The inductive strengthening of the shadow-buffer invariant: the count is not negative and
the index size is 0, 2 or 4. -/
def IndexBuffer.SizesOk (b : IndexBuffer) : Prop :=
  0 ≤ b.indexCount_ ∧ (b.indexSize_ = 0 ∨ b.indexSize_ = 2 ∨ b.indexSize_ = 4)

/-! ## The engine string class

`String` (containers/str.h) is not among the sources; the operations `Create_OGL` uses are
modelled here on lists of characters. -/

/-- The engine's `String`: a finite sequence of characters. -/
abbrev Str := List Char

/-- Modelled from the spec: `String::Find(char)` is not among the sources. It yields the
position of the first occurrence of the character, or `none` for `String::NPOS`. -/
def Find (c : Char) : Str → Option Nat
  | [] => none
  | x :: xs => if x = c then some 0 else (Find c xs).map (· + 1)

/-- Modelled from the spec: `String::Substring(pos, length)` is not among the sources. It
yields at most `length` characters starting at `pos`, and the empty string when `pos` is not
inside the string. -/
def Substring (s : Str) (pos length : Nat) : Str :=
  if pos < s.length then (s.drop pos).take length else []

/-- Modelled from the spec: `String::Replaced(char, char)` is not among the sources. It
replaces every occurrence of one character by another. -/
def Replaced (s : Str) (replaceThis replaceWith : Char) : Str :=
  s.map (fun c => if c = replaceThis then replaceWith else c)

/-- Modelled from the spec: the scanning loop of `String::Split`, which is not among the
sources. `cur` is the token being collected; a token is pushed when the separator or the end
is reached and the token is not empty. -/
def SplitLoop (separator : Char) : Str → Str → List Str
  | [], cur => if cur.length > 0 then [cur] else []
  | c :: cs, cur =>
    if c = separator then
      if cur.length > 0 then cur :: SplitLoop separator cs [] else SplitLoop separator cs []
    else SplitLoop separator cs (cur ++ [c])

/-- Modelled from the spec: `String::Split(char)` is not among the sources. It cuts the
string at every separator and keeps the non-empty pieces, in order. -/
def Split (s : Str) (separator : Char) : List Str := SplitLoop separator s []

/-- Modelled from the spec: the constructor `String(unsigned)` is not among the sources. It
yields the decimal text of the number. -/
def StringOfUnsigned (n : Nat) : Str := (Nat.repr n).toList

/-- Modelled from the spec: `IsDigit` is not among the sources. It accepts the ten decimal
digit characters. -/
def IsDigit (c : Char) : Bool := decide (('0' : Char) ≤ c) && decide (c ≤ ('9' : Char))

/-- The character NUL, which ends a C string. -/
def NUL : Char := Char.ofNat 0

/-- A character sequence read as a C string: the characters before the first NUL, all of
them when there is none. -/
def untilNUL (s : Str) : Str := s.takeWhile (fun c => decide (c ≠ NUL))

/-- The read `s.c_str() + offset` used as a C string: the characters from `offset` up to the
first NUL behind it. The engine string is length-counted and may hold NUL characters itself;
its buffer carries a terminating NUL at offset `s.length`. An offset past that terminator is
outside the string, and the read yields `none`. -/
def cstrFrom (s : Str) (offset : Nat) : Option Str :=
  if offset ≤ s.length then some (untilNUL (s.drop offset)) else none

/-- Number of positions of `s` at which `pat` occurs as a substring. -/
def countOccurrences (pat : Str) : Str → Nat
  | [] => if pat.isPrefixOf [] then 1 else 0
  | c :: cs => (if pat.isPrefixOf (c :: cs) then 1 else 0) + countOccurrences pat cs

/-! ## ShaderVariation (OpenGL) -/

/-- Modelled from the spec: the enumeration `ShaderType` (graphics_defs.h) is not among the
sources. It is the stage kind: vertex or fragment (pixel). -/
inductive ShaderType where
  | VS
  | PS
  deriving DecidableEq, Repr

/-- The preprocessor symbols `Create_OGL` is compiled under. -/
structure BuildConfig where
  DESKTOP_GRAPHICS : Bool
  MOBILE_GRAPHICS : Bool
  DV_GLES3 : Bool
  RPI : Bool
  EMSCRIPTEN : Bool
  deriving DecidableEq, Repr

/-- A desktop build: `DESKTOP_GRAPHICS` only. -/
def desktopBuild : BuildConfig :=
  { DESKTOP_GRAPHICS := true, MOBILE_GRAPHICS := false, DV_GLES3 := false, RPI := false,
    EMSCRIPTEN := false }

/-- The loop `while (verEnd < Length()) if IsDigit(code[verEnd]) ++verEnd; else break;`.
The first argument is the part of the source from offset `verEnd` on. -/
def skipDigits : Str → Nat → Nat
  | [], verEnd => verEnd
  | c :: cs, verEnd => if IsDigit c then skipDigits cs (verEnd + 1) else verEnd

/-- Lines 92-111 of `Create_OGL`: the check for a version define. The result is `verEnd`
together with the shader code assembled so far. -/
def detectVersion (originalShaderCode : Str) : Nat × Str :=
  match Find '#' originalShaderCode with
  | none => (0, [])
  | some verStart =>
    if Substring originalShaderCode (verStart + 1) 7 = "version".toList then
      let verEnd := skipDigits (originalShaderCode.drop (verStart + 9)) (verStart + 9)
      -- If version define found, insert it first
      let versionDefine := Substring originalShaderCode verStart (verEnd - verStart)
      (verEnd, versionDefine ++ "\n".toList)
    else (0, [])

/-- The offset `verEnd` computed by `Create_OGL` (0 when no version define was found). -/
def versionEnd (originalShaderCode : Str) : Nat := (detectVersion originalShaderCode).1

/-- One pass of the loop over `defineVec`: the line appended for one define. The check of
debug builds that follows it only logs a warning and is left out. -/
def defineString (define : Str) : Str :=
  "#define ".toList ++ Replaced define '=' ' ' ++ " \n".toList

/-- The loop `for (i = 0; i < defineVec.Size(); ++i) shaderCode += defineString;`. -/
def appendDefines (shaderCode : Str) (defineVec : List Str) : Str :=
  defineVec.foldl (fun code define => code ++ defineString define) shaderCode

/-- Lines 89-156 of `Create_OGL`: the shader code assembled before the original source is
appended. `maxBones` is `Graphics::GetMaxBones()`. -/
def assembleHeader (cfg : BuildConfig) (type_ : ShaderType) (maxBones : Nat)
    (defines_ originalShaderCode : Str) : Str :=
  let (verEnd, shaderCode) := detectVersion originalShaderCode
  -- Force GLSL version 150 if no version define and GL3 is being used
  let shaderCode :=
    if verEnd = 0 then
      if cfg.MOBILE_GRAPHICS || cfg.DV_GLES3 then shaderCode ++ "#version 300 es\n".toList
      else shaderCode ++ "#version 150\n".toList
    else shaderCode
  let shaderCode :=
    if cfg.DESKTOP_GRAPHICS then shaderCode ++ "#define DESKTOP_GRAPHICS\n".toList
    else if cfg.MOBILE_GRAPHICS then shaderCode ++ "#define MOBILE_GRAPHICS\n".toList
    else shaderCode
  -- Distinguish between VS and PS compile
  let shaderCode :=
    shaderCode ++
      (if type_ = ShaderType.VS then "#define COMPILEVS\n".toList
       else "#define COMPILEPS\n".toList)
  -- Add define for the maximum number of supported bones
  let shaderCode :=
    shaderCode ++ ("#define MAXBONES ".toList ++ StringOfUnsigned maxBones ++ "\n".toList)
  -- Prepend the defines to the shader code
  let defineVec := Split defines_ ' '
  let shaderCode := appendDefines shaderCode defineVec
  let shaderCode :=
    if cfg.RPI then
      if type_ = ShaderType.VS then shaderCode ++ "#define RPI\n".toList else shaderCode
    else shaderCode
  let shaderCode := if cfg.EMSCRIPTEN then shaderCode ++ "#define WEBGL\n".toList else shaderCode
  shaderCode ++ "#define GL3\n".toList

/-- Lines 89-162 of `Create_OGL`: the text handed to `glShaderSource`. The result is `none`
when the read `originalShaderCode.c_str() + verEnd` starts outside the source string. -/
def assembleShaderCode (cfg : BuildConfig) (type_ : ShaderType) (maxBones : Nat)
    (defines_ originalShaderCode : Str) : Option Str :=
  let shaderCode := assembleHeader cfg type_ maxBones defines_ originalShaderCode
  let verEnd := versionEnd originalShaderCode
  -- When version define found, do not insert it a second time
  if verEnd > 0 then
    (cstrFrom originalShaderCode verEnd).map (fun rest => shaderCode ++ rest)
  else
    some (shaderCode ++ originalShaderCode)

/-- Modelled from the spec: the class `Shader` (shader.h) is not among the sources. This is
the owning source provider as far as `Create_OGL` uses it: the source code of each stage. -/
structure Shader where
  vsSourceCode_ : Str
  psSourceCode_ : Str
  deriving DecidableEq, Repr

/-- Modelled from the spec: `Shader::GetSourceCode(type)` is not among the sources. It
fetches the raw source text for a stage. -/
def Shader.GetSourceCode (s : Shader) (type : ShaderType) : Str :=
  match type with
  | ShaderType.VS => s.vsSourceCode_
  | ShaderType.PS => s.psSourceCode_

/-- Data members of `ShaderVariation` that `Create_OGL` and `Release_OGL` touch. `owner_` is
the weak pointer to the owning shader (`none` once expired); `name_` is `object_.name_`. -/
structure ShaderVariation where
  owner_ : Option Shader
  type_ : ShaderType
  name_ : Nat
  defines_ : Str
  compilerOutput_ : Str
  deriving DecidableEq, Repr

/-- Modelled from the spec: the `Graphics` subsystem is not among the sources. This is the
part of the graphics context that `Release_OGL` reads and changes: the device-lost flag,
whether the bound vertex / pixel shader is this variation, the handles passed to
`glDeleteShader`, and whether the shader-program cache was told to purge this variation. -/
structure Graphics where
  deviceLost : Bool
  vertexShaderIsThis : Bool
  pixelShaderIsThis : Bool
  deletedShaders : List Nat
  programsCleanedUp : Bool
  deriving DecidableEq, Repr

/-- Modelled from the spec: the OpenGL driver is not among the sources. `createShader` is
what `glCreateShader` returns (0 on failure); `compile` gives, for a source text, the compile
status and the info log. -/
structure GLDriver where
  createShader : Nat
  compile : Str → Bool × Str

/-- The method `ShaderVariation::Release_OGL`; `headless` is `GParams::is_headless()`. -/
def ShaderVariation.Release_OGL (headless : Bool) (graphics : Graphics)
    (sv : ShaderVariation) : ShaderVariation × Graphics :=
  if sv.name_ ≠ 0 then
    if headless then (sv, graphics)
    else
      let graphics :=
        if ¬ graphics.deviceLost then
          let graphics :=
            if sv.type_ = ShaderType.VS then
              if graphics.vertexShaderIsThis then
                { graphics with vertexShaderIsThis := false, pixelShaderIsThis := false }
              else graphics
            else
              if graphics.pixelShaderIsThis then
                { graphics with vertexShaderIsThis := false, pixelShaderIsThis := false }
              else graphics
          { graphics with deletedShaders := graphics.deletedShaders ++ [sv.name_] }
        else graphics
      ({ sv with name_ := 0, compilerOutput_ := [] },
       { graphics with programsCleanedUp := true })
  else
    ({ sv with compilerOutput_ := [] }, graphics)

/-- What `Create_OGL` leaves behind: the return value, the variation and the context. -/
structure CreateResult where
  ret : Bool
  sv : ShaderVariation
  graphics : Graphics
  deriving DecidableEq, Repr

/-- The method `ShaderVariation::Create_OGL`. The result is `none` when assembling the shader
text reads outside the source string. -/
def ShaderVariation.Create_OGL (cfg : BuildConfig) (maxBones : Nat) (headless : Bool)
    (gl : GLDriver) (graphics : Graphics) (sv : ShaderVariation) : Option CreateResult :=
  let (sv, graphics) := sv.Release_OGL headless graphics
  match sv.owner_ with
  | none =>
    some ⟨false, { sv with compilerOutput_ := "Owner shader has expired".toList }, graphics⟩
  | some owner =>
    let sv := { sv with name_ := gl.createShader }
    if sv.name_ = 0 then
      some ⟨false, { sv with compilerOutput_ := "Could not create shader object".toList },
        graphics⟩
    else
      let originalShaderCode := owner.GetSourceCode sv.type_
      match assembleShaderCode cfg sv.type_ maxBones sv.defines_ originalShaderCode with
      | none => none
      | some shaderCode =>
        let (compiled, infoLog) := gl.compile shaderCode
        if ¬ compiled then
          let graphics :=
            { graphics with deletedShaders := graphics.deletedShaders ++ [sv.name_] }
          let sv := { sv with compilerOutput_ := infoLog, name_ := 0 }
          some ⟨decide (sv.name_ ≠ 0), sv, graphics⟩
        else
          let sv := { sv with compilerOutput_ := [] }
          some ⟨decide (sv.name_ ≠ 0), sv, graphics⟩

/-! ## Specification-level notions -/

/-- The non-empty space-separated tokens of a defines string, in order. -/
def defineTokens (defines : Str) : List Str :=
  (defines.splitOn ' ').filter (fun t => !t.isEmpty)

/-- The define lines `Create_OGL` injects between the version line and the source on a build
`cfg`: platform, stage, `MAXBONES`, one line per define, and the closing lines. -/
def injectedDefines (cfg : BuildConfig) (type_ : ShaderType) (maxBones : Nat)
    (defines_ : Str) : Str :=
  (if cfg.DESKTOP_GRAPHICS then "#define DESKTOP_GRAPHICS\n".toList
   else if cfg.MOBILE_GRAPHICS then "#define MOBILE_GRAPHICS\n".toList else []) ++
  (if type_ = ShaderType.VS then "#define COMPILEVS\n".toList
   else "#define COMPILEPS\n".toList) ++
  "#define MAXBONES ".toList ++ (Nat.repr maxBones).toList ++ "\n".toList ++
  ((defineTokens defines_).map defineString).flatten ++
  (if cfg.RPI && decide (type_ = ShaderType.VS) then "#define RPI\n".toList else []) ++
  (if cfg.EMSCRIPTEN then "#define WEBGL\n".toList else []) ++
  "#define GL3\n".toList

/-- A driver whose calls succeed: `glCreateShader` returns handle 1 and every text compiles
with an empty log. -/
def workingDriver : GLDriver :=
  { createShader := 1, compile := fun _ => (true, []) }

/-- A graphics context with a live device and nothing bound. -/
def idleGraphics : Graphics :=
  { deviceLost := false, vertexShaderIsThis := false, pixelShaderIsThis := false,
    deletedShaders := [], programsCleanedUp := false }

/-- A vertex-stage variation holding the live handle 7 whose owner has expired. -/
def orphanVariation : ShaderVariation :=
  { owner_ := none, type_ := ShaderType.VS, name_ := 7, defines_ := "A=1 B".toList,
    compilerOutput_ := [] }

/-- A vertex-stage variation holding the live handle 7 whose owner provides a source. -/
def ownedVariation : ShaderVariation :=
  { owner_ := some { vsSourceCode_ := "#version 330\nfoo".toList, psSourceCode_ := [] },
    type_ := ShaderType.VS, name_ := 7, defines_ := "A=1 B".toList, compilerOutput_ := [] }

/-- A text in which every '#' is followed, inside the text, by a character other than 'v':
no occurrence of "#version" can start in it, whatever follows. -/
def hashSafe : Str → Bool
  | [] => true
  | [c] => decide (c ≠ '#')
  | c :: d :: rest => (decide (c ≠ '#') || decide (d ≠ 'v')) && hashSafe (d :: rest)

/-! ## Backend dispatch of the index buffer -/

/-- Modelled from the spec: the enumeration `GAPI` (graphics_defs.h) is not among the
sources. It is the process-wide selection of the active graphics API: none, or OpenGL. -/
inductive GAPI where
  | GAPI_NONE
  | GAPI_OPENGL
  deriving DecidableEq, Repr

/-- The method `IndexBuffer::Create`: on a build with `DV_OPENGL` and with the OpenGL API
selected it returns what `Create_OGL` returns (`createdOGL`; `Create_OGL` is not among the
sources), and `false` otherwise. -/
def IndexBuffer.Create (DV_OPENGL : Bool) (gapi : GAPI) (createdOGL : Bool) : Bool :=
  if DV_OPENGL then
    if gapi = GAPI.GAPI_OPENGL then createdOGL else false
  else false

/-- The source of a vertex-stage owner that ends right after the version keyword. -/
def bareVersionVariation : ShaderVariation :=
  { owner_ := some { vsSourceCode_ := "#version".toList, psSourceCode_ := [] },
    type_ := ShaderType.VS, name_ := 0, defines_ := [], compilerOutput_ := [] }

theorem wrapI32_of_range (x : Int) (h0 : -2147483648 ≤ x) (h1 : x ≤ 2147483647) :
    wrapI32 x = x := by
  unfold wrapI32
  omega

theorem readU32_eq_getElem (data : List byte) (pos : Nat) :
    readU32 data pos = (valuesU32 data)[pos]? := by
  induction pos generalizing data with
  | zero =>
    match data with
    | [] => simp [readU32, valuesU32]
    | [_] => simp [readU32, valuesU32]
    | [_, _] => simp [readU32, valuesU32]
    | [_, _, _] => simp [readU32, valuesU32]
    | b0 :: b1 :: b2 :: b3 :: rest => simp [readU32, valuesU32]
  | succ n ih =>
    match data with
    | [] => simp [readU32, valuesU32]
    | [_] => simp [readU32, valuesU32, Nat.mul_succ]
    | [_, _] => simp [readU32, valuesU32, Nat.mul_succ]
    | [_, _, _] => simp [readU32, valuesU32, Nat.mul_succ]
    | b0 :: b1 :: b2 :: b3 :: rest =>
      have h : readU32 (b0 :: b1 :: b2 :: b3 :: rest) (n + 1) = readU32 rest n := by
        simp [readU32, Nat.mul_succ]
      rw [h, ih rest]
      simp [valuesU32]

theorem readU16_eq_getElem (data : List byte) (pos : Nat) :
    readU16 data pos = (valuesU16 data)[pos]? := by
  induction pos generalizing data with
  | zero =>
    match data with
    | [] => simp [readU16, valuesU16]
    | [_] => simp [readU16, valuesU16]
    | b0 :: b1 :: rest => simp [readU16, valuesU16]
  | succ n ih =>
    match data with
    | [] => simp [readU16, valuesU16]
    | [_] => simp [readU16, valuesU16, Nat.mul_succ]
    | b0 :: b1 :: rest =>
      have h : readU16 (b0 :: b1 :: rest) (n + 1) = readU16 rest n := by
        simp [readU16, Nat.mul_succ]
      rw [h, ih rest]
      simp [valuesU16]

theorem valuesU32_length (data : List byte) : (valuesU32 data).length = data.length / 4 := by
  match data with
  | [] => simp [valuesU32]
  | [_] => simp [valuesU32]
  | [_, _] => simp [valuesU32]
  | [_, _, _] => simp [valuesU32]
  | b0 :: b1 :: b2 :: b3 :: rest =>
    have ih := valuesU32_length rest
    simp only [valuesU32, List.length_cons, ih]
    omega

theorem valuesU16_length (data : List byte) : (valuesU16 data).length = data.length / 2 := by
  match data with
  | [] => simp [valuesU16]
  | [_] => simp [valuesU16]
  | b0 :: b1 :: rest =>
    have ih := valuesU16_length rest
    simp only [valuesU16, List.length_cons, ih]
    omega

theorem valuesU32_lt (data : List byte) : ∀ v ∈ valuesU32 data, v < 4294967296 := by
  match data with
  | [] => simp [valuesU32]
  | [_] => simp [valuesU32]
  | [_, _] => simp [valuesU32]
  | [_, _, _] => simp [valuesU32]
  | b0 :: b1 :: b2 :: b3 :: rest =>
    have ih := valuesU32_lt rest
    intro v hv
    simp only [valuesU32, List.mem_cons] at hv
    rcases hv with rfl | hv
    · have := b0.isLt; have := b1.isLt; have := b2.isLt; have := b3.isLt
      omega
    · exact ih v hv

theorem valuesU16_lt (data : List byte) : ∀ v ∈ valuesU16 data, v < 65536 := by
  match data with
  | [] => simp [valuesU16]
  | [_] => simp [valuesU16]
  | b0 :: b1 :: rest =>
    have ih := valuesU16_lt rest
    intro v hv
    simp only [valuesU16, List.mem_cons] at hv
    rcases hv with rfl | hv
    · have := b0.isLt; have := b1.isLt
      omega
    · exact ih v hv

/-- The scanning loop over a window it can read: the result is a pair of running minimum and
maximum, each either the initial value or a member of the window. -/
theorem scanLoop_spec (read : Nat → Option Int) (l : List Int) :
    ∀ (i : Nat) (mn mx : Int), (∀ k, (h : k < l.length) → read (i + k) = some (l.get ⟨k, h⟩)) →
      ∃ lo hi, scanLoop read i l.length mn mx = some (lo, hi) ∧
        (lo = mn ∨ lo ∈ l) ∧ (hi = mx ∨ hi ∈ l) ∧ lo ≤ mn ∧ mx ≤ hi ∧
        (∀ v ∈ l, lo ≤ v ∧ v ≤ hi) := by
  induction l with
  | nil =>
    intro i mn mx _
    exact ⟨mn, mx, by simp [scanLoop]⟩
  | cons x xs ih =>
    intro i mn mx hread
    have h0 : read i = some x := by
      have := hread 0 (by simp)
      simpa using this
    have hrest : ∀ k, (h : k < xs.length) → read (i + 1 + k) = some (xs.get ⟨k, h⟩) := by
      intro k hk
      have := hread (k + 1) (by simp; omega)
      simpa [Nat.add_assoc, Nat.add_comm 1 k] using this
    obtain ⟨lo, hi, hrun, hlo, hhi, hlomn, hmxhi, hall⟩ :=
      ih (i + 1) (if x < mn then x else mn) (if x > mx then x else mx) hrest
    refine ⟨lo, hi, ?_, ?_, ?_, ?_, ?_, ?_⟩
    · simp only [List.length_cons, scanLoop, h0]
      exact hrun
    · rcases hlo with h | h
      · by_cases hx : x < mn
        · right; simp [h, hx]
        · left; simp [h, hx]
      · right; exact List.mem_cons_of_mem _ h
    · rcases hhi with h | h
      · by_cases hx : x > mx
        · right; simp [h, hx]
        · left; simp [h, hx]
      · right; exact List.mem_cons_of_mem _ h
    · split at hlomn <;> omega
    · split at hmxhi <;> omega
    · intro v hv
      rcases List.mem_cons.mp hv with rfl | hv
      · constructor
        · split at hlomn <;> omega
        · split at hmxhi <;> omega
      · exact hall v hv

theorem indexValues_length (b : IndexBuffer) (data : List byte) (hwf : b.WellFormed)
    (hdata : b.shadowData_ = some data) :
    ((indexValues b.indexSize_ data).length : Int) = b.indexCount_ := by
  have hlen := hwf.length_ok data hdata
  rcases hwf.size_ok data hdata with h4 | h2
  · rw [h4] at hlen
    simp only [indexValues, h4, if_true, valuesU32_length]
    omega
  · rw [h2] at hlen
    have : ¬ ((2 : Int) = 4) := by decide
    simp only [indexValues, h2, this, if_false, valuesU16_length]
    omega

theorem windowValues_length (b : IndexBuffer) (data : List byte) (start count : Int)
    (hwf : b.WellFormed) (hdata : b.shadowData_ = some data)
    (hstart : 0 ≤ start) (hrange : start + count ≤ b.indexCount_) :
    (windowValues b data start count).length = count.toNat := by
  have hlen := indexValues_length b data hwf hdata
  simp only [windowValues, List.length_take, List.length_drop]
  omega

theorem windowValues_get (b : IndexBuffer) (data : List byte) (start count : Int) (k : Nat)
    (h : k < (windowValues b data start count).length) :
    (indexValues b.indexSize_ data)[start.toNat + k]? =
      some ((windowValues b data start count).get ⟨k, h⟩) := by
  simp only [windowValues, List.get_eq_getElem, List.getElem_take, List.getElem_drop]
  simp only [windowValues, List.length_take, List.length_drop] at h
  rw [List.getElem?_eq_getElem]

/-- C1 (amended): on a well-formed buffer with shadow data, for a non-empty in-range window
whose index values fit the signed 32-bit out-parameters and whose spread max-min+1 fits as
well, GetUsedVertexRange returns true, minVertex is the true minimum of the window and
vertexCount is true maximum - true minimum + 1. -/
theorem GetUsedVertexRange_min_max (b : IndexBuffer) (data : List byte)
    (start count minVertex vertexCount : Int)
    (hwf : b.WellFormed) (hdata : b.shadowData_ = some data)
    (hstart : 0 ≤ start) (hcount : 0 < count) (hrange : start + count ≤ b.indexCount_)
    (hfit : ∀ v ∈ windowValues b data start count, (v : Int) ≤ M_MAX_INT)
    (hspread : ∀ u ∈ windowValues b data start count, ∀ v ∈ windowValues b data start count,
      (v : Int) - (u : Int) + 1 ≤ M_MAX_INT) :
    b.ReportsTrueRange data start count minVertex vertexCount := by
  unfold IndexBuffer.ReportsTrueRange
  have hmax : M_MAX_INT = 2147483647 := rfl
  have hwlen := windowValues_length b data start count hwf hdata hstart hrange
  have hcle := hwf.count_le
  -- the values the loop reads are the window, as signed integers
  have hread : ∀ k, (h : k < ((windowValues b data start count).map Int.ofNat).length) →
      (if b.indexSize_ = 4 then
          fun i => (readU32 data (start.toNat + i)).map castU32ToI32
        else
          fun i => (readU16 data (start.toNat + i)).map castU16ToI32) (0 + k) =
        some (((windowValues b data start count).map Int.ofNat).get ⟨k, h⟩) := by
    intro k hk
    have hk2 : k < (windowValues b data start count).length := by simpa using hk
    have hget := windowValues_get b data start count k hk2
    have hmem : (windowValues b data start count).get ⟨k, hk2⟩ ∈
        windowValues b data start count := List.get_mem _ _ _
    have hle := hfit _ hmem
    by_cases h4 : b.indexSize_ = 4
    · simp only [h4, if_true, Nat.zero_add, readU32_eq_getElem]
      simp only [indexValues, h4, if_true] at hget
      rw [hget]
      simp only [Option.map_some', List.get_eq_getElem, List.getElem_map, castU32ToI32]
      rw [wrapI32_of_range]
      · rfl
      · simp only [List.get_eq_getElem] at hle; omega
      · simp only [List.get_eq_getElem] at hle; omega
    · simp only [h4, if_false, Nat.zero_add, readU16_eq_getElem]
      simp only [indexValues, h4, if_false] at hget
      rw [hget]
      simp only [Option.map_some', List.get_eq_getElem, List.getElem_map, castU16ToI32]
      rfl
  obtain ⟨lo, hi, hrun, hlo, hhi, _, _, hall⟩ :=
    scanLoop_spec _ ((windowValues b data start count).map Int.ofNat) 0 M_MAX_INT 0 hread
  -- the window is not empty
  have hne : 0 < (windowValues b data start count).length := by omega
  have hx0 : (windowValues b data start count).get ⟨0, hne⟩ ∈
      windowValues b data start count := List.get_mem _ _ _
  have hx0i : (((windowValues b data start count).get ⟨0, hne⟩ : Nat) : Int) ∈
      (windowValues b data start count).map Int.ofNat :=
    List.mem_map.mpr ⟨_, hx0, rfl⟩
  have hlo2 : lo ∈ (windowValues b data start count).map Int.ofNat := by
    rcases hlo with h | h
    · have h1 := (hall _ hx0i).1
      have h2 := hfit _ hx0
      have : lo = (((windowValues b data start count).get ⟨0, hne⟩ : Nat) : Int) := by omega
      rw [this]; exact hx0i
    · exact h
  have hhi2 : hi ∈ (windowValues b data start count).map Int.ofNat := by
    rcases hhi with h | h
    · have h1 := (hall _ hx0i).2
      have : hi = (((windowValues b data start count).get ⟨0, hne⟩ : Nat) : Int) := by omega
      rw [this]; exact hx0i
    · exact h
  obtain ⟨lo', hlo', rfl⟩ := List.mem_map.mp hlo2
  obtain ⟨hi', hhi', rfl⟩ := List.mem_map.mp hhi2
  refine ⟨lo', hi', hlo', hhi', ?_, ?_⟩
  · intro v hv
    have := hall (v : Int) (List.mem_map.mpr ⟨v, hv, rfl⟩)
    constructor
    · exact Int.ofNat_le.mp this.1
    · exact Int.ofNat_le.mp this.2
  · have hsp := hspread lo' hlo' hi' hhi'
    have hlohi := (hall (Int.ofNat lo') hlo2).2
    have hguard : ¬ (wrapI32 (start + count) > b.indexCount_) := by
      rw [wrapI32_of_range] <;> omega
    have hpre : ¬ ¬ (start ≥ 0 ∧ count ≥ 0) := by
      simp only [not_not]; constructor <;> omega
    have hlen' : ((windowValues b data start count).map Int.ofNat).length = count.toNat := by
      simpa using hwlen
    rw [hlen'] at hrun
    simp only [Int.ofNat_eq_coe] at hlohi hrun
    simp only [IndexBuffer.GetUsedVertexRange, hpre, if_false, hdata, hguard, hrun]
    rw [wrapI32_of_range] <;> omega

theorem buffer32_wellFormed_5_2_9 : (buffer32 [5, 2, 9]).WellFormed :=
  ⟨by decide, by decide, fun _ _ => Or.inl rfl, fun data h => by cases h; decide⟩

/-- C1 (amended) at the three 32-bit indices [5, 2, 9] with (start, count) = (0, 3):
minVertex = 2 and vertexCount = 8. -/
theorem GetUsedVertexRange_min_max_witness :
    ((buffer32 [5, 2, 9]).WellFormed ∧
      (buffer32 [5, 2, 9]).shadowData_ = some ([5, 2, 9].flatMap bytesU32) ∧
      (0 : Int) ≤ 0 ∧ (0 : Int) < 3 ∧ (0 : Int) + 3 ≤ (buffer32 [5, 2, 9]).indexCount_) ∧
    (buffer32 [5, 2, 9]).ReportsTrueRange ([5, 2, 9].flatMap bytesU32) 0 3 0 0 ∧
    (buffer32 [5, 2, 9]).GetUsedVertexRange 0 3 0 0 = some ⟨true, 2, 8⟩ :=
  ⟨⟨buffer32_wellFormed_5_2_9, rfl, by decide, by decide, by decide⟩,
   GetUsedVertexRange_min_max (buffer32 [5, 2, 9]) ([5, 2, 9].flatMap bytesU32) 0 3 0 0
     buffer32_wellFormed_5_2_9 rfl (by decide) (by decide) (by decide) (by decide) (by decide),
   by decide⟩

theorem buffer32_wellFormed_big : (buffer32 [2147483648]).WellFormed :=
  ⟨by decide, by decide, fun _ _ => Or.inl rfl, fun data h => by cases h; decide⟩

theorem buffer32_wellFormed_spread : (buffer32 [0, 2147483647]).WellFormed :=
  ⟨by decide, by decide, fun _ _ => Or.inl rfl, fun data h => by cases h; decide⟩

/-- C1 as stated fails in three ways, each on a well-formed shadowed buffer of 32-bit indices
and an in-range window. With the single index 2147483648 the code returns
minVertex = -2147483648 and vertexCount = -2147483647, while the true minimum is 2147483648
and max-min+1 is 1. With the indices [0, 2147483647] the minimum is right but vertexCount is
-2147483648 rather than 2147483648. With count = 0 the window has no minimum, and the code
returns true with minVertex = 2147483647 and vertexCount = -2147483646. -/
theorem GetUsedVertexRange_not_true_min_max :
    ((buffer32 [2147483648]).WellFormed ∧
      (buffer32 [2147483648]).GetUsedVertexRange 0 1 0 0 =
        some ⟨true, -2147483648, -2147483647⟩ ∧
      ¬ (buffer32 [2147483648]).ReportsTrueRange ([2147483648].flatMap bytesU32) 0 1 0 0) ∧
    ((buffer32 [0, 2147483647]).WellFormed ∧
      (buffer32 [0, 2147483647]).GetUsedVertexRange 0 2 0 0 = some ⟨true, 0, -2147483648⟩ ∧
      ¬ (buffer32 [0, 2147483647]).ReportsTrueRange
          ([0, 2147483647].flatMap bytesU32) 0 2 0 0) ∧
    ((buffer32 [5, 2, 9]).WellFormed ∧
      (buffer32 [5, 2, 9]).GetUsedVertexRange 1 0 0 0 =
        some ⟨true, 2147483647, -2147483646⟩ ∧
      ¬ (buffer32 [5, 2, 9]).ReportsTrueRange ([5, 2, 9].flatMap bytesU32) 1 0 0 0) := by
  refine ⟨⟨buffer32_wellFormed_big, by decide, ?_⟩,
    ⟨buffer32_wellFormed_spread, by decide, ?_⟩, ⟨buffer32_wellFormed_5_2_9, by decide, ?_⟩⟩
  · rintro ⟨lo, hi, hlo, _, _, h⟩
    have hw : windowValues (buffer32 [2147483648]) ([2147483648].flatMap bytesU32) 0 1 =
        [2147483648] := by decide
    have he : (buffer32 [2147483648]).GetUsedVertexRange 0 1 0 0 =
        some ⟨true, -2147483648, -2147483647⟩ := by decide
    rw [hw, List.mem_singleton] at hlo
    rw [he] at h
    simp only [Option.some.injEq, VertexRange.mk.injEq, true_and] at h
    omega
  · rintro ⟨lo, hi, _, _, _, h⟩
    have he : (buffer32 [0, 2147483647]).GetUsedVertexRange 0 2 0 0 =
        some ⟨true, 0, -2147483648⟩ := by decide
    rw [he] at h
    simp only [Option.some.injEq, VertexRange.mk.injEq, true_and] at h
    omega
  · rintro ⟨lo, _, hlo, _⟩
    have hw : windowValues (buffer32 [5, 2, 9]) ([5, 2, 9].flatMap bytesU32) 1 0 = [] := by
      decide
    rw [hw] at hlo
    exact absurd hlo (List.not_mem_nil _)

/-- C2 at start = 2147483647, count = 1 on a shadowed buffer of three 32-bit indices: the
mathematical sum 2147483648 exceeds indexCount = 3, but the 32-bit sum wraps to -2147483648,
the range guard lets the call through, and the scan reads index 2147483647, outside the
shadow data, instead of returning false. -/
theorem GetUsedVertexRange_overflow_passes_guard :
    (buffer32 [5, 2, 9]).WellFormed ∧
    (buffer32 [5, 2, 9]).shadowData_ ≠ none ∧
    (2147483647 : Int) + 1 > (buffer32 [5, 2, 9]).indexCount_ ∧
    ¬ (wrapI32 (2147483647 + 1) > (buffer32 [5, 2, 9]).indexCount_) ∧
    readU32 ([5, 2, 9].flatMap bytesU32) 2147483647 = none ∧
    (buffer32 [5, 2, 9]).GetUsedVertexRange 2147483647 1 0 0 = none ∧
    (buffer32 [5, 2, 9]).GetUsedVertexRange 2147483647 1 0 0 ≠ some ⟨false, 0, 0⟩ :=
  ⟨buffer32_wellFormed_5_2_9, by decide, by decide, by decide, by decide, by decide,
   by decide⟩

/-- Away from the overflow of start+count, the guard of GetUsedVertexRange is exact: on a
well-formed buffer the call returns false, leaving the out-parameters alone, when there is no
shadow data or start+count exceeds indexCount, and returns true in every other case. -/
theorem GetUsedVertexRange_ret_of_no_overflow (b : IndexBuffer)
    (start count minVertex vertexCount : Int) (hwf : b.WellFormed)
    (hstart : 0 ≤ start) (hcount : 0 ≤ count) (hsum : start + count ≤ M_MAX_INT) :
    ((b.shadowData_ = none ∨ start + count > b.indexCount_) →
      b.GetUsedVertexRange start count minVertex vertexCount =
        some ⟨false, minVertex, vertexCount⟩) ∧
    (¬ (b.shadowData_ = none ∨ start + count > b.indexCount_) →
      ∃ r, b.GetUsedVertexRange start count minVertex vertexCount = some r ∧ r.ret = true) := by
  have hmax : M_MAX_INT = 2147483647 := rfl
  have hpre : ¬ ¬ (start ≥ 0 ∧ count ≥ 0) := by
    simp only [not_not]; constructor <;> omega
  have hwrap : wrapI32 (start + count) = start + count := by
    rw [wrapI32_of_range] <;> omega
  constructor
  · intro h
    cases hdata : b.shadowData_ with
    | none => simp only [IndexBuffer.GetUsedVertexRange, hpre, if_false, hdata]
    | some data =>
      have hgt : start + count > b.indexCount_ := by
        rcases h with h | h
        · rw [hdata] at h; exact absurd h (by simp)
        · exact h
      simp only [IndexBuffer.GetUsedVertexRange, hpre, if_false, hdata, hwrap, hgt, if_true]
  · intro h
    cases hdata : b.shadowData_ with
    | none => exact absurd (Or.inl hdata) h
    | some data =>
      have hrange : start + count ≤ b.indexCount_ := by
        by_contra hc
        exact h (Or.inr (by omega))
      have hguard : ¬ (start + count > b.indexCount_) := by omega
      have hwlen := windowValues_length b data start count hwf hdata hstart hrange
      have hread : ∀ k, (hk : k < ((windowValues b data start count).map
            (fun v => if b.indexSize_ = 4 then castU32ToI32 v else castU16ToI32 v)).length) →
          (if b.indexSize_ = 4 then
              fun i => (readU32 data (start.toNat + i)).map castU32ToI32
            else
              fun i => (readU16 data (start.toNat + i)).map castU16ToI32) (0 + k) =
            some (((windowValues b data start count).map
              (fun v => if b.indexSize_ = 4 then castU32ToI32 v else castU16ToI32 v)).get
                ⟨k, hk⟩) := by
        intro k hk
        have hk2 : k < (windowValues b data start count).length := by simpa using hk
        have hget := windowValues_get b data start count k hk2
        by_cases h4 : b.indexSize_ = 4
        · simp only [h4, if_true, Nat.zero_add, readU32_eq_getElem]
          simp only [indexValues, h4, if_true] at hget
          rw [hget]
          simp only [Option.map_some', List.get_eq_getElem, List.getElem_map, h4, if_true]
        · simp only [h4, if_false, Nat.zero_add, readU16_eq_getElem]
          simp only [indexValues, h4, if_false] at hget
          rw [hget]
          simp only [Option.map_some', List.get_eq_getElem, List.getElem_map, h4, if_false]
      obtain ⟨lo, hi, hrun, _⟩ := scanLoop_spec _ _ 0 M_MAX_INT 0 hread
      have hlen' : ((windowValues b data start count).map
          (fun v => if b.indexSize_ = 4 then castU32ToI32 v else castU16ToI32 v)).length =
          count.toNat := by
        simpa using hwlen
      rw [hlen'] at hrun
      refine ⟨⟨true, lo, wrapI32 (hi - lo + 1)⟩, ?_, rfl⟩
      simp only [IndexBuffer.GetUsedVertexRange, hpre, if_false, hdata, hwrap, hguard, hrun]

/-! ## Shadowing of the index buffer -/

theorem newBytes_length (junk : Nat → byte) (n : Nat) : (newBytes junk n).length = n := by
  simp [newBytes]

theorem new_invariant (headless : Bool) :
    (IndexBuffer.new headless).ShadowInvariant ∧ (IndexBuffer.new headless).SizesOk := by
  cases headless <;>
    simp [IndexBuffer.new, IndexBuffer.ShadowInvariant, IndexBuffer.SizesOk]

theorem SetShadowed_invariant (headless : Bool) (junk : Nat → byte) (b : IndexBuffer)
    (enable : Bool) (hinv : b.ShadowInvariant) (hsz : b.SizesOk) :
    (b.SetShadowed headless junk enable).ShadowInvariant ∧
      (b.SetShadowed headless junk enable).SizesOk := by
  obtain ⟨hc, hs⟩ := hsz
  unfold IndexBuffer.SetShadowed
  simp only []
  generalize (if headless = true then true else enable) = e
  by_cases hne : e ≠ b.shadowed_
  · rw [if_pos hne]
    refine ⟨?_, ⟨hc, hs⟩⟩
    by_cases hen : e = true
    · by_cases hcz : b.indexCount_ = 0
      · simp [IndexBuffer.ShadowInvariant, hen, hcz]
      · by_cases hsz : b.indexSize_ = 0
        · simp [IndexBuffer.ShadowInvariant, hen, hsz]
        · have hcpos : 0 < b.indexCount_ := by omega
          have hspos : 0 < b.indexSize_ := by omega
          have hmul : 0 ≤ b.indexCount_ * b.indexSize_ := Int.mul_nonneg hc (by omega)
          simp [IndexBuffer.ShadowInvariant, hen, hcz, hsz, hcpos, hspos, newBytes_length,
            Int.toNat_of_nonneg hmul]
    · simp [IndexBuffer.ShadowInvariant, hen]
  · rw [if_neg hne]
    exact ⟨hinv, ⟨hc, hs⟩⟩

theorem SetSize_invariant (junk : Nat → byte) (created : Bool) (b : IndexBuffer)
    (indexCount : Int) (largeIndices dynamic : Bool) (hcount : 0 ≤ indexCount) :
    ∃ b1, b.SetSize junk created indexCount largeIndices dynamic = some (created, b1) ∧
      b1.ShadowInvariant ∧ b1.SizesOk ∧ b1.shadowed_ = b.shadowed_ := by
  have hpre : ¬ ¬ (indexCount ≥ 0) := by simpa using hcount
  have hunlock : b.Unlock.shadowed_ = b.shadowed_ := by
    unfold IndexBuffer.Unlock
    split <;> rfl
  simp only [IndexBuffer.SetSize, hpre, if_false, hunlock]
  refine ⟨_, rfl, ?_, ?_, ?_⟩
  · by_cases hsh : b.shadowed_ = true
    · by_cases hcz : indexCount = 0
      · simp [IndexBuffer.ShadowInvariant, hsh, hcz]
      · have hcpos : 0 < indexCount := by omega
        cases largeIndices
        · have hmul : 0 ≤ indexCount * 2 := by omega
          simp [IndexBuffer.ShadowInvariant, hsh, hcz, hcpos, newBytes_length,
            Int.toNat_of_nonneg hmul]
        · have hmul : 0 ≤ indexCount * 4 := by omega
          simp [IndexBuffer.ShadowInvariant, hsh, hcz, hcpos, newBytes_length,
            Int.toNat_of_nonneg hmul]
    · simp [IndexBuffer.ShadowInvariant, hsh]
  · refine ⟨hcount, ?_⟩
    cases largeIndices <;> simp
  · simp [hunlock]

theorem calls_invariant (headless : Bool) (cs : List IndexBufferCall) :
    ∀ b : IndexBuffer, b.ShadowInvariant → b.SizesOk → (∀ c ∈ cs, c.Admissible) →
      ∃ b1, b.calls headless cs = some b1 ∧ b1.ShadowInvariant ∧ b1.SizesOk ∧
        (headless = true → b.shadowed_ = true → b1.shadowed_ = true) := by
  induction cs with
  | nil =>
    intro b hinv hsz _
    exact ⟨b, rfl, hinv, hsz, fun _ h => h⟩
  | cons c cs ih =>
    intro b hinv hsz hadm
    have hc : c.Admissible := hadm c (List.mem_cons_self _ _)
    have hcs : ∀ c1 ∈ cs, c1.Admissible := fun c1 h => hadm c1 (List.mem_cons_of_mem _ h)
    cases c with
    | setShadowed enable junk =>
      obtain ⟨h1, h2⟩ := SetShadowed_invariant headless junk b enable hinv hsz
      obtain ⟨b1, hrun, hi, hs, hsh⟩ := ih _ h1 h2 hcs
      refine ⟨b1, ?_, hi, hs, ?_⟩
      · simp only [IndexBuffer.calls, IndexBuffer.call]
        exact hrun
      · intro hh hb
        apply hsh hh
        subst hh
        simp [IndexBuffer.SetShadowed, hb]
    | setSize indexCount largeIndices dynamic created junk =>
      obtain ⟨b0, hset, h1, h2, hkeep⟩ :=
        SetSize_invariant junk created b indexCount largeIndices dynamic hc
      obtain ⟨b1, hrun, hi, hs, hsh⟩ := ih _ h1 h2 hcs
      refine ⟨b1, ?_, hi, hs, ?_⟩
      · simp only [IndexBuffer.calls, IndexBuffer.call, hset, Option.map_some']
        exact hrun
      · intro hh hb
        exact hsh hh (hkeep.trans hb)

/-- Three calls used to exercise the call sequences: shadow, size to three 32-bit indices,
unshadow. -/
theorem sampleCalls_admissible :
    ∀ c ∈ [IndexBufferCall.setShadowed true (fun _ => 0),
        IndexBufferCall.setSize 3 true false true (fun _ => 0),
        IndexBufferCall.setShadowed false (fun _ => 0)], c.Admissible := by
  intro c hc
  simp only [List.mem_cons, List.mem_singleton, List.not_mem_nil, or_false] at hc
  rcases hc with rfl | rfl | rfl <;> simp [IndexBufferCall.Admissible]

/-- C6: in every state reached from the constructor by a sequence of SetShadowed and SetSize
calls (counts not negative, any backend creation outcome, any contents of fresh memory), the
shadow buffer is allocated if and only if shadowed is true and indexCount > 0 and
indexSize > 0, and when allocated it holds exactly indexCount*indexSize bytes; and
SetShadowed(false) outside headless mode leaves no shadow buffer. -/
theorem shadow_invariant_reachable (headless : Bool) (cs : List IndexBufferCall)
    (hadm : ∀ c ∈ cs, c.Admissible) :
    ∃ b, (IndexBuffer.new headless).calls headless cs = some b ∧ b.ShadowInvariant ∧
      (headless = false → ∀ junk, (b.SetShadowed headless junk false).shadowData_ = none) := by
  obtain ⟨h0, s0⟩ := new_invariant headless
  obtain ⟨b, hrun, hinv, _, _⟩ := calls_invariant headless cs _ h0 s0 hadm
  refine ⟨b, hrun, hinv, ?_⟩
  intro hh junk
  subst hh
  by_cases hsh : b.shadowed_ = true
  · simp [IndexBuffer.SetShadowed, hsh]
  · have hnone : b.shadowData_ = none := by
      by_contra hne
      exact hsh (hinv.1.mp hne).1
    have hfalse : b.shadowed_ = false := by simpa using hsh
    simp [IndexBuffer.SetShadowed, hfalse, hnone]

/-- C6 on the calls SetShadowed(true), SetSize(3, true), SetShadowed(false), with and without
headless mode. -/
theorem shadow_invariant_reachable_witness :
    (∀ c ∈ [IndexBufferCall.setShadowed true (fun _ => 0),
        IndexBufferCall.setSize 3 true false true (fun _ => 0),
        IndexBufferCall.setShadowed false (fun _ => 0)], c.Admissible) ∧
    (∃ b, (IndexBuffer.new false).calls false
        [IndexBufferCall.setShadowed true (fun _ => 0),
         IndexBufferCall.setSize 3 true false true (fun _ => 0),
         IndexBufferCall.setShadowed false (fun _ => 0)] = some b ∧ b.ShadowInvariant ∧
      (false = false → ∀ junk, (b.SetShadowed false junk false).shadowData_ = none)) ∧
    (∃ b, (IndexBuffer.new true).calls true
        [IndexBufferCall.setShadowed true (fun _ => 0),
         IndexBufferCall.setSize 3 true false true (fun _ => 0),
         IndexBufferCall.setShadowed false (fun _ => 0)] = some b ∧ b.ShadowInvariant ∧
      (true = false → ∀ junk, (b.SetShadowed true junk false).shadowData_ = none)) :=
  ⟨sampleCalls_admissible,
   shadow_invariant_reachable false _ sampleCalls_admissible,
   shadow_invariant_reachable true _ sampleCalls_admissible⟩

/-- C7: SetShadowed(e) applied twice yields the same state (flag, shadow buffer and its
contents) as SetShadowed(e) applied once, whatever fresh memory holds; and if the effective
request equals the current shadowed flag the state is left entirely unchanged. -/
theorem SetShadowed_idempotent (headless : Bool) (junk1 junk2 : Nat → byte) (b : IndexBuffer)
    (enable : Bool) :
    (b.SetShadowed headless junk1 enable).SetShadowed headless junk2 enable =
      b.SetShadowed headless junk1 enable ∧
    ((if headless then true else enable) = b.shadowed_ →
      b.SetShadowed headless junk1 enable = b) := by
  unfold IndexBuffer.SetShadowed
  simp only []
  generalize (if headless = true then true else enable) = e
  constructor
  · by_cases hne : e ≠ b.shadowed_
    · simp [hne]
    · simp [hne]
  · intro h
    simp [h]

/-- C7 on a shadowed buffer of three 32-bit indices: SetShadowed(true) changes nothing, and
SetShadowed(false) twice equals SetShadowed(false) once. -/
theorem SetShadowed_idempotent_witness :
    ((buffer32 [5, 2, 9]).SetShadowed false (fun _ => 0) false).SetShadowed false
        (fun _ => 1) false =
      (buffer32 [5, 2, 9]).SetShadowed false (fun _ => 0) false ∧
    (buffer32 [5, 2, 9]).SetShadowed false (fun _ => 0) true = buffer32 [5, 2, 9] :=
  ⟨(SetShadowed_idempotent false (fun _ => 0) (fun _ => 1) (buffer32 [5, 2, 9]) false).1,
   (SetShadowed_idempotent false (fun _ => 0) (fun _ => 1) (buffer32 [5, 2, 9]) true).2 rfl⟩

/-- C8: in headless mode a newly constructed IndexBuffer has IsShadowed() = true, it is still
true after every sequence of SetShadowed and SetSize calls, and in the state reached
SetShadowed(false) changes nothing: an allocated shadow buffer is not released. -/
theorem headless_stays_shadowed (cs : List IndexBufferCall) (hadm : ∀ c ∈ cs, c.Admissible) :
    (IndexBuffer.new true).IsShadowed = true ∧
    ∃ b, (IndexBuffer.new true).calls true cs = some b ∧ b.IsShadowed = true ∧
      ∀ junk, b.SetShadowed true junk false = b := by
  refine ⟨rfl, ?_⟩
  obtain ⟨h0, s0⟩ := new_invariant true
  obtain ⟨b, hrun, _, _, hsh⟩ := calls_invariant true cs _ h0 s0 hadm
  have hb : b.shadowed_ = true := hsh rfl rfl
  refine ⟨b, hrun, hb, ?_⟩
  intro junk
  simp [IndexBuffer.SetShadowed, hb]

/-- C8 on the calls SetShadowed(true), SetSize(3, true), SetShadowed(false): the buffer is
still shadowed and still holds its twelve bytes. -/
theorem headless_stays_shadowed_witness :
    (∀ c ∈ [IndexBufferCall.setShadowed true (fun _ => 0),
        IndexBufferCall.setSize 3 true false true (fun _ => 0),
        IndexBufferCall.setShadowed false (fun _ => 0)], c.Admissible) ∧
    ((IndexBuffer.new true).IsShadowed = true ∧
      ∃ b, (IndexBuffer.new true).calls true
          [IndexBufferCall.setShadowed true (fun _ => 0),
           IndexBufferCall.setSize 3 true false true (fun _ => 0),
           IndexBufferCall.setShadowed false (fun _ => 0)] = some b ∧ b.IsShadowed = true ∧
        ∀ junk, b.SetShadowed true junk false = b) ∧
    ((IndexBuffer.new true).calls true
        [IndexBufferCall.setShadowed true (fun _ => 0),
         IndexBufferCall.setSize 3 true false true (fun _ => 0),
         IndexBufferCall.setShadowed false (fun _ => 0)]).map
      (fun b => (b.shadowed_, b.shadowData_.map List.length)) = some (true, some 12) :=
  ⟨sampleCalls_admissible, headless_stays_shadowed _ sampleCalls_admissible, by decide⟩

/-! ## Creating a shader variation -/

theorem Release_OGL_sv (headless : Bool) (graphics : Graphics) (sv : ShaderVariation)
    (h : headless = false ∨ sv.name_ = 0) :
    (sv.Release_OGL headless graphics).1 = { sv with name_ := 0, compilerOutput_ := [] } := by
  unfold ShaderVariation.Release_OGL
  by_cases hn : sv.name_ = 0
  · simp only [hn, ne_eq, not_true_eq_false, if_false]
  · have hh : headless = false := by
      rcases h with h | h
      · exact h
      · exact absurd h hn
    subst hh
    simp [hn]

theorem Release_OGL_keeps (headless : Bool) (graphics : Graphics) (sv : ShaderVariation) :
    (sv.Release_OGL headless graphics).1.owner_ = sv.owner_ ∧
    (sv.Release_OGL headless graphics).1.type_ = sv.type_ ∧
    (sv.Release_OGL headless graphics).1.defines_ = sv.defines_ ∧
    ((sv.Release_OGL headless graphics).1.name_ = 0 ∨
      (headless = true ∧ sv.name_ ≠ 0 ∧ (sv.Release_OGL headless graphics).1 = sv)) := by
  unfold ShaderVariation.Release_OGL
  by_cases hn : sv.name_ = 0
  · simp [hn]
  · cases headless
    · simp [hn]
    · simp [hn]

/-- In headless mode a variation with a live handle and an expired owner keeps its handle:
Create_OGL returns false with the compiler output "Owner shader has expired" and changes
nothing else. -/
theorem Create_OGL_headless_expired (cfg : BuildConfig) (maxBones : Nat) (gl : GLDriver)
    (graphics : Graphics) (sv : ShaderVariation) (hn : sv.name_ ≠ 0) (ho : sv.owner_ = none) :
    sv.Create_OGL cfg maxBones true gl graphics =
      some ⟨false, { sv with compilerOutput_ := "Owner shader has expired".toList },
        graphics⟩ := by
  simp [ShaderVariation.Create_OGL, ShaderVariation.Release_OGL, hn, ho]

/-- C9 (amended): in every prior state other than headless mode with a live handle and an
expired owner (so also in headless mode with a live handle and a live owner), Create_OGL
completes unless the source read leaves the string, and whenever it completes the handle is
non-zero exactly when it returned true; an expired owner gives false with the compiler
output "Owner shader has expired", a failed shader-object creation gives false, a failed
compilation gives false with the backend's log as compiler output, and a successful Create
leaves the compiler output empty. -/
theorem Create_OGL_handle_iff_ret (cfg : BuildConfig) (maxBones : Nat) (headless : Bool)
    (gl : GLDriver) (graphics : Graphics) (sv : ShaderVariation)
    (h : headless = false ∨ sv.name_ = 0 ∨ sv.owner_ ≠ none) :
    (sv.Create_OGL cfg maxBones headless gl graphics = none ↔
      ∃ owner, sv.owner_ = some owner ∧ gl.createShader ≠ 0 ∧
        assembleShaderCode cfg sv.type_ maxBones sv.defines_ (owner.GetSourceCode sv.type_) =
          none) ∧
    ∀ r, sv.Create_OGL cfg maxBones headless gl graphics = some r →
      (r.sv.name_ ≠ 0 ↔ r.ret = true) ∧
      (r.ret = true → r.sv.compilerOutput_ = [] ∧ r.sv.name_ = gl.createShader) ∧
      (sv.owner_ = none →
        r.ret = false ∧ r.sv.compilerOutput_ = "Owner shader has expired".toList) ∧
      (gl.createShader = 0 → r.ret = false) ∧
      (∀ owner text, sv.owner_ = some owner → gl.createShader ≠ 0 →
        assembleShaderCode cfg sv.type_ maxBones sv.defines_ (owner.GetSourceCode sv.type_) =
          some text →
        (gl.compile text).1 = false →
        r.ret = false ∧ r.sv.compilerOutput_ = (gl.compile text).2) := by
  obtain ⟨hko, hkt, hkd, hkn⟩ := Release_OGL_keeps headless graphics sv
  rcases hpair : sv.Release_OGL headless graphics with ⟨sv1, g1⟩
  rw [hpair] at hko hkt hkd hkn
  simp only at hko hkt hkd hkn
  -- with an expired owner the handle is zero after the release
  have hzero : sv.owner_ = none → sv1.name_ = 0 := by
    intro hnone
    rcases hkn with hz | ⟨hh, hnz, _⟩
    · exact hz
    · rcases h with h | h | h
      · rw [hh] at h; exact Bool.noConfusion h
      · exact absurd h hnz
      · exact absurd hnone h
  unfold ShaderVariation.Create_OGL
  rw [hpair]
  simp only []
  cases howner : sv.owner_ with
  | none =>
    rw [howner] at hko
    have hz := hzero howner
    simp [hko, hz]
  | some owner =>
    rw [howner] at hko
    simp only [hko, hkt, hkd]
    by_cases hcreate : gl.createShader = 0
    · simp [hcreate]
    · simp only [hcreate, if_false]
      cases htext : assembleShaderCode cfg sv.type_ maxBones sv.defines_
          (owner.GetSourceCode sv.type_) with
      | none => simp [hcreate, htext]
      | some text =>
        simp only []
        rcases hcomp : gl.compile text with ⟨compiled, infoLog⟩
        cases compiled
        · simp only [hcomp, htext]
          refine ⟨by simp [htext], ?_⟩
          intro r hr
          cases hr
          refine ⟨by simp, by simp, by simp, by simp [hcreate], ?_⟩
          intro owner1 text1 ho _ ht hc
          cases ho
          rw [htext] at ht
          have ht2 : text = text1 := Option.some.inj ht
          subst ht2
          rw [hcomp]
          simp
        · simp only [hcomp, htext]
          refine ⟨by simp [htext], ?_⟩
          intro r hr
          cases hr
          refine ⟨by simp [hcreate], by simp, by simp, by simp [hcreate], ?_⟩
          intro owner1 text1 ho _ ht hc
          cases ho
          rw [htext] at ht
          have ht2 : text = text1 := Option.some.inj ht
          subst ht2
          rw [hcomp] at hc
          simp at hc

/-- C9 (amended) on a variation with the live handle 7 and a live owner. In headless mode the
old handle is not released, the new handle 1 replaces it and true is returned with an empty
compiler output; outside headless mode the same holds and the old handle is deleted. -/
theorem Create_OGL_handle_iff_ret_witness :
    ((true = false ∨ ownedVariation.name_ = 0 ∨ ownedVariation.owner_ ≠ none) ∧
      ownedVariation.Create_OGL desktopBuild 128 true workingDriver idleGraphics ≠ none) ∧
    (∀ r, ownedVariation.Create_OGL desktopBuild 128 true workingDriver idleGraphics = some r →
      (r.sv.name_ ≠ 0 ↔ r.ret = true)) ∧
    (∀ r, ownedVariation.Create_OGL desktopBuild 128 false workingDriver idleGraphics = some r →
      (r.sv.name_ ≠ 0 ↔ r.ret = true)) ∧
    (ownedVariation.Create_OGL desktopBuild 128 true workingDriver idleGraphics).map
      (fun r => (r.ret, r.sv.name_, r.sv.compilerOutput_, r.graphics.deletedShaders)) =
      some (true, 1, [], []) ∧
    (ownedVariation.Create_OGL desktopBuild 128 false workingDriver idleGraphics).map
      (fun r => (r.ret, r.sv.name_, r.sv.compilerOutput_, r.graphics.deletedShaders)) =
      some (true, 1, [], [7]) :=
  ⟨⟨Or.inr (Or.inr (by decide)), by decide⟩,
   fun r hr =>
     ((Create_OGL_handle_iff_ret desktopBuild 128 true workingDriver idleGraphics
        ownedVariation (Or.inr (Or.inr (by decide)))).2 r hr).1,
   fun r hr =>
     ((Create_OGL_handle_iff_ret desktopBuild 128 false workingDriver idleGraphics
        ownedVariation (Or.inl rfl)).2 r hr).1,
   by decide, by decide⟩

/-- C9 as stated fails in headless mode on a variation with a live handle whose owner has
expired: Release_OGL returns before clearing the handle, Create_OGL returns false, and the
handle is still 7. -/
theorem Create_OGL_headless_keeps_handle :
    orphanVariation.Create_OGL desktopBuild 128 true workingDriver idleGraphics =
      some ⟨false,
        { owner_ := none, type_ := ShaderType.VS, name_ := 7, defines_ := "A=1 B".toList,
          compilerOutput_ := "Owner shader has expired".toList },
        idleGraphics⟩ ∧
    ∃ r, orphanVariation.Create_OGL desktopBuild 128 true workingDriver idleGraphics = some r ∧
      r.ret = false ∧ r.sv.name_ = 7 ∧ ¬ (r.sv.name_ ≠ 0 ↔ r.ret = true) :=
  ⟨by decide, _, rfl, rfl, rfl, by decide⟩

/-! ## Lemmas on the string operations -/

theorem SplitLoop_eq_splitOn (separator : Char) (s : Str) :
    ∀ cur : Str, SplitLoop separator s cur =
      ((s.splitOn separator).modifyHead (fun t => cur ++ t)).filter (fun t => !t.isEmpty) := by
  induction s with
  | nil =>
    intro cur
    cases cur <;> simp [SplitLoop, List.splitOn, List.modifyHead]
  | cons c cs ih =>
    intro cur
    have hsplit : (c :: cs).splitOn separator =
        if (c == separator) = true then [] :: cs.splitOn separator
        else List.modifyHead (List.cons c) (cs.splitOn separator) := by
      simp only [List.splitOn]
      exact List.splitOnP_cons _ c cs
    by_cases hc : c = separator
    · subst hc
      have hnil : SplitLoop c cs [] =
          (cs.splitOn c).filter (fun t => !t.isEmpty) := by
        rw [ih []]
        cases cs.splitOn c <;> simp [List.modifyHead]
      rw [hsplit]
      cases cur with
      | nil => simp [SplitLoop, hnil, List.modifyHead]
      | cons x xs => simp [SplitLoop, hnil, List.modifyHead]
    · have hbeq : ¬ ((c == separator) = true) := by simpa using hc
      rw [hsplit, if_neg hbeq]
      simp only [SplitLoop, if_neg hc]
      rw [ih (cur ++ [c])]
      cases cs.splitOn separator <;> simp [List.modifyHead]

/-- The engine's `Split` keeps exactly the non-empty space-separated tokens, in order. -/
theorem Split_eq_defineTokens (defines : Str) : Split defines ' ' = defineTokens defines := by
  unfold Split defineTokens
  rw [SplitLoop_eq_splitOn]
  cases defines.splitOn ' ' <;> simp [List.modifyHead]

theorem appendDefines_eq (defineVec : List Str) :
    ∀ shaderCode : Str, appendDefines shaderCode defineVec =
      shaderCode ++ (defineVec.map defineString).flatten := by
  induction defineVec with
  | nil => intro shaderCode; simp [appendDefines]
  | cons d ds ih =>
    intro shaderCode
    have h := ih (shaderCode ++ defineString d)
    simp only [appendDefines, List.foldl_cons] at h ⊢
    rw [h]
    simp [List.append_assoc]

theorem ite_append_right (c : Prop) [Decidable c] (s a : Str) :
    (if c then s ++ a else s) = s ++ (if c then a else []) := by
  split <;> simp

theorem ite_ite_append_right (c d : Prop) [Decidable c] [Decidable d] (s a b : Str) :
    (if c then s ++ a else if d then s ++ b else s) =
      s ++ (if c then a else if d then b else []) := by
  split
  · rfl
  · split <;> simp

theorem ite_append_right_ite (c d : Prop) [Decidable c] [Decidable d] (s a : Str) :
    (if c then (if d then s ++ a else s) else s) = s ++ (if c ∧ d then a else []) := by
  by_cases hc : c <;> by_cases hd : d <;> simp [hc, hd]

/-- The header `Create_OGL` assembles is the version line (the detected directive, or the
default one) followed by the injected define lines. -/
theorem assembleHeader_eq (cfg : BuildConfig) (type_ : ShaderType) (maxBones : Nat)
    (defines_ originalShaderCode : Str) :
    assembleHeader cfg type_ maxBones defines_ originalShaderCode =
      (if versionEnd originalShaderCode = 0 then
          (detectVersion originalShaderCode).2 ++
            (if cfg.MOBILE_GRAPHICS || cfg.DV_GLES3 then "#version 300 es\n".toList
             else "#version 150\n".toList)
        else (detectVersion originalShaderCode).2) ++
      injectedDefines cfg type_ maxBones defines_ := by
  rcases hdv : detectVersion originalShaderCode with ⟨verEnd, code⟩
  have hrpi : (if (cfg.RPI = true ∧ type_ = ShaderType.VS) then "#define RPI\n".toList else []) =
      (if (cfg.RPI && decide (type_ = ShaderType.VS)) = true then "#define RPI\n".toList
        else []) := by
    cases cfg.RPI <;> cases type_ <;> simp
  simp only [assembleHeader, versionEnd, injectedDefines, appendDefines_eq,
    Split_eq_defineTokens, StringOfUnsigned, hdv]
  rw [ite_append_right_ite, ite_append_right, ite_ite_append_right, hrpi]
  by_cases h : verEnd = 0
  · simp only [h, if_true]
    split <;> simp only [List.append_assoc]
  · simp only [h, if_false, List.append_assoc]

theorem skipDigits_digits (d rest : Str) (hdig : ∀ c ∈ d, IsDigit c = true)
    (hrest : ∀ c, rest.head? = some c → IsDigit c = false) :
    ∀ n, skipDigits (d ++ rest) n = n + d.length := by
  induction d with
  | nil =>
    intro n
    cases rest with
    | nil => simp [skipDigits]
    | cons r rs => simp [skipDigits, hrest r rfl]
  | cons x xs ih =>
    intro n
    have hx : IsDigit x = true := hdig x (List.mem_cons_self _ _)
    have := ih (fun c hc => hdig c (List.mem_cons_of_mem _ hc)) (n + 1)
    rw [List.cons_append, skipDigits, if_pos hx, this, List.length_cons]
    omega

theorem detectVersion_leading (d rest : Str) (hdig : ∀ c ∈ d, IsDigit c = true)
    (hrest : ∀ c, rest.head? = some c → IsDigit c = false) :
    detectVersion ("#version ".toList ++ d ++ rest) =
      (9 + d.length, "#version ".toList ++ d ++ "\n".toList) := by
  have hskip := skipDigits_digits d rest hdig hrest 9
  have htake : ("#version ".toList ++ d ++ rest).take (9 + d.length) = "#version ".toList ++ d :=
    List.take_left' (by simp; omega)
  have hdrop : ("#version ".toList ++ d ++ rest).drop 9 = d ++ rest := by
    rw [List.append_assoc]
    exact List.drop_left' rfl
  have hfind : Find '#' ("#version ".toList ++ d ++ rest) = some 0 := by
    simp [Find]
  have hsub : Substring ("#version ".toList ++ d ++ rest) (0 + 1) 7 = "version".toList := by
    simp [Substring]
  have hwhole : Substring ("#version ".toList ++ d ++ rest) 0 (9 + d.length - 0) =
      "#version ".toList ++ d := by
    have hpos : 0 < ("#version ".toList ++ d ++ rest).length := by simp
    simp only [Substring, hpos, if_true, List.drop_zero, Nat.sub_zero, htake]
  rw [detectVersion, hfind]
  simp only []
  rw [if_pos hsub]
  simp only [Nat.zero_add, hdrop, hskip, hwhole]

theorem Find_eq_none (c : Char) (s : Str) (h : c ∉ s) : Find c s = none := by
  induction s with
  | nil => rfl
  | cons x xs ih =>
    have hx : ¬ x = c := fun e => h (e ▸ List.mem_cons_self _ _)
    have hxs : c ∉ xs := fun hm => h (List.mem_cons_of_mem _ hm)
    simp [Find, hx, ih hxs]

theorem versionEnd_of_no_hash (s : Str) (h : '#' ∉ s) : versionEnd s = 0 := by
  simp [versionEnd, detectVersion, Find_eq_none '#' s h]

theorem detectVersion_of_versionEnd_zero (s : Str) (h : versionEnd s = 0) :
    detectVersion s = (0, []) := by
  unfold versionEnd detectVersion at *
  split
  · rfl
  · rename_i verStart hfind
    rw [hfind] at h
    simp only at h
    split
    · rename_i hsub
      rw [if_pos hsub] at h
      simp only at h
      -- the loop never moves `verEnd` below its start `verStart + 9`
      have hge : ∀ (l : Str) (n : Nat), n ≤ skipDigits l n := by
        intro l
        induction l with
        | nil => intro n; simp [skipDigits]
        | cons c cs ih =>
          intro n
          simp only [skipDigits]
          split
          · exact Nat.le_trans (Nat.le_succ n) (ih (n + 1))
          · exact Nat.le_refl n
      have := hge (s.drop (verStart + 9)) (verStart + 9)
      omega
    · rfl

theorem untilNUL_of_not_mem (s : Str) (h : NUL ∉ s) : untilNUL s = s := by
  induction s with
  | nil => rfl
  | cons x xs ih =>
    have hx : x ≠ NUL := fun e => h (e ▸ List.mem_cons_self _ _)
    have hxs : NUL ∉ xs := fun hm => h (List.mem_cons_of_mem _ hm)
    have := ih hxs
    simp only [untilNUL] at this ⊢
    rw [List.takeWhile_cons, this]
    simp [hx]

theorem untilNUL_append_rest (s : Str) : ∃ t, s = untilNUL s ++ t :=
  ⟨s.dropWhile (fun c => decide (c ≠ NUL)), (List.takeWhile_append_dropWhile _ s).symm⟩

/-! ## The assembled shader text -/

/-- C3 (amended): for a source "#version " ++ d ++ rest, with d a run of decimal digits
(non-empty or not) and rest not beginning with a digit, the text assembled by Create_OGL is
exactly "#version " ++ d ++ "\n" ++ the injected define lines ++ the part of rest before its
first NUL character: the directive is the first line, unmodified, and when rest holds no NUL
the whole remainder of the source follows the injected defines verbatim. -/
theorem assembleShaderCode_leading_version (cfg : BuildConfig) (type_ : ShaderType)
    (maxBones : Nat) (defines_ d rest : Str)
    (hdig : ∀ c ∈ d, IsDigit c = true)
    (hrest : ∀ c, rest.head? = some c → IsDigit c = false) :
    assembleShaderCode cfg type_ maxBones defines_ ("#version ".toList ++ d ++ rest) =
      some ("#version ".toList ++ d ++ "\n".toList ++
        injectedDefines cfg type_ maxBones defines_ ++ untilNUL rest) ∧
    (NUL ∉ rest →
      assembleShaderCode cfg type_ maxBones defines_ ("#version ".toList ++ d ++ rest) =
        some ("#version ".toList ++ d ++ "\n".toList ++
          injectedDefines cfg type_ maxBones defines_ ++ rest)) := by
  have hdv := detectVersion_leading d rest hdig hrest
  have hve : versionEnd ("#version ".toList ++ d ++ rest) = 9 + d.length := by
    simp only [versionEnd, hdv]
  have hpos : 9 + d.length > 0 := by omega
  have hne0 : ¬ (9 + d.length = 0) := by omega
  have hcstr : cstrFrom ("#version ".toList ++ d ++ rest) (9 + d.length) =
      some (untilNUL rest) := by
    have hlen : 9 + d.length ≤ ("#version ".toList ++ d ++ rest).length := by simp; omega
    have hdrop : ("#version ".toList ++ d ++ rest).drop (9 + d.length) = rest :=
      List.drop_left' (by simp; omega)
    simp only [cstrFrom, hlen, if_true, hdrop]
  have hmain : assembleShaderCode cfg type_ maxBones defines_
      ("#version ".toList ++ d ++ rest) =
      some ("#version ".toList ++ d ++ "\n".toList ++
        injectedDefines cfg type_ maxBones defines_ ++ untilNUL rest) := by
    simp only [assembleShaderCode, assembleHeader_eq, hve, hpos, hne0, if_true, if_false, hdv,
      hcstr, Option.map_some']
  refine ⟨hmain, ?_⟩
  intro hnul
  rw [hmain, untilNUL_of_not_mem rest hnul]

/-- C3 (amended) at the source "#version 330\nfoo" with the defines "A=1 B": the first line
of the text is "#version 330" and the text ends with "\nfoo". -/
theorem assembleShaderCode_leading_version_witness :
    ((∀ c ∈ "330".toList, IsDigit c = true) ∧
      (∀ c, "\nfoo".toList.head? = some c → IsDigit c = false) ∧
      NUL ∉ "\nfoo".toList) ∧
    assembleShaderCode desktopBuild ShaderType.VS 128 "A=1 B".toList
        ("#version ".toList ++ "330".toList ++ "\nfoo".toList) =
      some ("#version ".toList ++ "330".toList ++ "\n".toList ++
        injectedDefines desktopBuild ShaderType.VS 128 "A=1 B".toList ++ "\nfoo".toList) ∧
    assembleShaderCode desktopBuild ShaderType.VS 128 "A=1 B".toList "#version 330\nfoo".toList =
      some ("#version 330\n#define DESKTOP_GRAPHICS\n#define COMPILEVS\n".toList ++
        "#define MAXBONES 128\n#define A 1 \n#define B \n#define GL3\n\nfoo".toList) :=
  ⟨⟨by decide, by decide, by decide⟩,
   (assembleShaderCode_leading_version desktopBuild ShaderType.VS 128 "A=1 B".toList
     "330".toList "\nfoo".toList (by decide) (by decide)).2 (by decide),
   by decide⟩

/-- C3 as stated fails when the remainder holds a NUL character: for the source
"#version 330\nfoo" ++ NUL ++ "bar" the remainder "\nfoo" ++ NUL ++ "bar" does not begin with
a digit, the remainder is appended through a character pointer, and the assembled text ends
with "\nfoo": the characters from the NUL on are not in it. -/
theorem leading_version_remainder_cut :
    (∀ c ∈ "330".toList, IsDigit c = true) ∧
    (∀ c, ("\nfoo".toList ++ NUL :: "bar".toList).head? = some c → IsDigit c = false) ∧
    assembleShaderCode desktopBuild ShaderType.VS 128 "A=1 B".toList
        ("#version ".toList ++ "330".toList ++ ("\nfoo".toList ++ NUL :: "bar".toList)) =
      some ("#version 330\n#define DESKTOP_GRAPHICS\n#define COMPILEVS\n".toList ++
        "#define MAXBONES 128\n#define A 1 \n#define B \n#define GL3\n\nfoo".toList) ∧
    assembleShaderCode desktopBuild ShaderType.VS 128 "A=1 B".toList
        ("#version ".toList ++ "330".toList ++ ("\nfoo".toList ++ NUL :: "bar".toList)) ≠
      some ("#version ".toList ++ "330".toList ++ "\n".toList ++
        injectedDefines desktopBuild ShaderType.VS 128 "A=1 B".toList ++
        ("\nfoo".toList ++ NUL :: "bar".toList)) :=
  ⟨by decide, by decide, by decide, by decide⟩

/-- C10: when no version directive is detected (in particular when the source contains no
'#'), on a desktop, non-RPI, non-Emscripten build the assembled text is "#version 150\n",
"#define DESKTOP_GRAPHICS\n", the stage define, "#define MAXBONES <max bones>\n", the
per-token define lines, "#define GL3\n", then the whole original source unchanged. -/
theorem assembleShaderCode_no_version (type_ : ShaderType) (maxBones : Nat)
    (defines_ originalShaderCode : Str)
    (h : '#' ∉ originalShaderCode ∨ versionEnd originalShaderCode = 0) :
    assembleShaderCode desktopBuild type_ maxBones defines_ originalShaderCode =
      some ("#version 150\n".toList ++ "#define DESKTOP_GRAPHICS\n".toList ++
        (if type_ = ShaderType.VS then "#define COMPILEVS\n".toList
         else "#define COMPILEPS\n".toList) ++
        "#define MAXBONES ".toList ++ (Nat.repr maxBones).toList ++ "\n".toList ++
        ((defineTokens defines_).map defineString).flatten ++
        "#define GL3\n".toList ++ originalShaderCode) := by
  have hve : versionEnd originalShaderCode = 0 := by
    rcases h with h | h
    · exact versionEnd_of_no_hash _ h
    · exact h
  have hdv := detectVersion_of_versionEnd_zero _ hve
  have hnpos : ¬ (0 > 0) := by decide
  simp only [assembleShaderCode, assembleHeader_eq, hve, hnpos, if_true, if_false, hdv,
    injectedDefines, desktopBuild, Bool.or_self, Bool.false_and, List.nil_append,
    List.append_nil, List.append_assoc]
  rfl

/-- C10 at a fragment-stage source without any '#'. -/
theorem assembleShaderCode_no_version_witness :
    ('#' ∉ "void main()".toList ∨ versionEnd "void main()".toList = 0) ∧
    assembleShaderCode desktopBuild ShaderType.PS 64 "A=1 B".toList "void main()".toList =
      some ("#version 150\n".toList ++ "#define DESKTOP_GRAPHICS\n".toList ++
        (if ShaderType.PS = ShaderType.VS then "#define COMPILEVS\n".toList
         else "#define COMPILEPS\n".toList) ++
        "#define MAXBONES ".toList ++ (Nat.repr 64).toList ++ "\n".toList ++
        ((defineTokens "A=1 B".toList).map defineString).flatten ++
        "#define GL3\n".toList ++ "void main()".toList) :=
  ⟨Or.inl (by decide),
   assembleShaderCode_no_version ShaderType.PS 64 "A=1 B".toList "void main()".toList
     (Or.inl (by decide))⟩

theorem Replaced_of_not_mem (s : Str) (a b : Char) (h : a ∉ s) : Replaced s a b = s := by
  induction s with
  | nil => rfl
  | cons x xs ih =>
    have hx : ¬ x = a := fun e => h (e ▸ List.mem_cons_self _ _)
    have hxs : a ∉ xs := fun hm => h (List.mem_cons_of_mem _ hm)
    have := ih hxs
    simp only [Replaced, List.map_cons, if_neg hx] at this ⊢
    rw [this]

theorem Replaced_append (s t : Str) (a b : Char) :
    Replaced (s ++ t) a b = Replaced s a b ++ Replaced t a b := by
  simp [Replaced]

/-- C4 (amended): the header assembled by Create_OGL is the version line, the platform and
stage defines, the MAXBONES define, then exactly one line per non-empty space-separated token
of the defines string, in token order, then the RPI / WEBGL lines of such builds and
"#define GL3"; the text is that header followed by what is read of the source. The line of a
token is "#define " ++ the token with every '=' replaced by a space ++ " \n": a token
NAME=VALUE with no further '=' yields "#define NAME VALUE \n", a token NAME without '=' yields
"#define NAME \n". -/
theorem assembleShaderCode_define_lines (cfg : BuildConfig) (type_ : ShaderType)
    (maxBones : Nat) (defines_ originalShaderCode : Str) :
    assembleHeader cfg type_ maxBones defines_ originalShaderCode =
      (if versionEnd originalShaderCode = 0 then
          (if cfg.MOBILE_GRAPHICS || cfg.DV_GLES3 then "#version 300 es\n".toList
           else "#version 150\n".toList)
        else (detectVersion originalShaderCode).2) ++
      (if cfg.DESKTOP_GRAPHICS then "#define DESKTOP_GRAPHICS\n".toList
       else if cfg.MOBILE_GRAPHICS then "#define MOBILE_GRAPHICS\n".toList else []) ++
      (if type_ = ShaderType.VS then "#define COMPILEVS\n".toList
       else "#define COMPILEPS\n".toList) ++
      "#define MAXBONES ".toList ++ (Nat.repr maxBones).toList ++ "\n".toList ++
      ((defineTokens defines_).map
        (fun token => "#define ".toList ++ Replaced token '=' ' ' ++ " \n".toList)).flatten ++
      (if cfg.RPI && decide (type_ = ShaderType.VS) then "#define RPI\n".toList else []) ++
      (if cfg.EMSCRIPTEN then "#define WEBGL\n".toList else []) ++
      "#define GL3\n".toList ∧
    assembleShaderCode cfg type_ maxBones defines_ originalShaderCode =
      (if versionEnd originalShaderCode > 0 then
          cstrFrom originalShaderCode (versionEnd originalShaderCode)
        else some originalShaderCode).map
        (fun rest => assembleHeader cfg type_ maxBones defines_ originalShaderCode ++ rest) ∧
    (∀ name value : Str, '=' ∉ name → '=' ∉ value →
      defineString (name ++ '=' :: value) =
        "#define ".toList ++ name ++ ' ' :: value ++ " \n".toList) ∧
    (∀ name : Str, '=' ∉ name → defineString name = "#define ".toList ++ name ++ " \n".toList) := by
  refine ⟨?_, ?_, ?_, ?_⟩
  · rw [assembleHeader_eq]
    have hver : (if versionEnd originalShaderCode = 0 then
          (detectVersion originalShaderCode).2 ++
            (if cfg.MOBILE_GRAPHICS || cfg.DV_GLES3 then "#version 300 es\n".toList
             else "#version 150\n".toList)
        else (detectVersion originalShaderCode).2) =
        (if versionEnd originalShaderCode = 0 then
          (if cfg.MOBILE_GRAPHICS || cfg.DV_GLES3 then "#version 300 es\n".toList
           else "#version 150\n".toList)
        else (detectVersion originalShaderCode).2) := by
      by_cases h : versionEnd originalShaderCode = 0
      · simp only [h, if_true, detectVersion_of_versionEnd_zero _ h, List.nil_append]
      · simp only [h, if_false]
    rw [hver]
    simp only [injectedDefines, List.append_assoc]
    rfl
  · unfold assembleShaderCode
    by_cases h : versionEnd originalShaderCode > 0
    · simp only [h, if_true]
    · simp only [h, if_false, Option.map_some']
  · intro name value hn hv
    have h1 : Replaced (name ++ '=' :: value) '=' ' ' = name ++ ' ' :: value := by
      have hcons : Replaced ('=' :: value) '=' ' ' = ' ' :: Replaced value '=' ' ' := by
        simp [Replaced]
      rw [Replaced_append, hcons, Replaced_of_not_mem name _ _ hn,
        Replaced_of_not_mem value _ _ hv]
    simp only [defineString, h1, List.append_assoc]
  · intro name hn
    simp only [defineString, Replaced_of_not_mem name _ _ hn]

/-- C4 at the defines "A=1 B": the lines "#define A 1 " and "#define B ", in this order. -/
theorem assembleShaderCode_define_lines_witness :
    ((defineTokens "A=1 B".toList).map
      (fun token => "#define ".toList ++ Replaced token '=' ' ' ++ " \n".toList)).flatten =
      "#define A 1 \n#define B \n".toList ∧
    defineString ("A".toList ++ '=' :: "1".toList) =
      "#define ".toList ++ "A".toList ++ ' ' :: "1".toList ++ " \n".toList ∧
    defineString "B".toList = "#define ".toList ++ "B".toList ++ " \n".toList :=
  ⟨by decide,
   (assembleShaderCode_define_lines desktopBuild ShaderType.VS 128 "A=1 B".toList
      "foo".toList).2.2.1 "A".toList "1".toList (by decide) (by decide),
   (assembleShaderCode_define_lines desktopBuild ShaderType.VS 128 "A=1 B".toList
      "foo".toList).2.2.2 "B".toList (by decide)⟩

/-- C4 as stated fails for the token "A=B=C": it contains '=', its line is "#define A B C \n",
and no way of reading the token as NAME=VALUE makes that line "#define NAME VALUE \n". -/
theorem defineString_not_name_value :
    defineTokens "A=B=C".toList = ["A=B=C".toList] ∧
    assembleShaderCode desktopBuild ShaderType.VS 128 "A=B=C".toList "foo".toList =
      some ("#version 150\n#define DESKTOP_GRAPHICS\n#define COMPILEVS\n".toList ++
        "#define MAXBONES 128\n#define A B C \n#define GL3\nfoo".toList) ∧
    ∀ name value : Str, "A=B=C".toList = name ++ '=' :: value →
      defineString "A=B=C".toList ≠ "#define ".toList ++ name ++ ' ' :: value ++ " \n".toList := by
  refine ⟨by decide, by decide, ?_⟩
  intro name value hsplit hline
  have hdef : defineString "A=B=C".toList = "#define ".toList ++ "A B C".toList ++ " \n".toList := by
    decide
  rw [hdef, List.append_assoc, List.append_assoc] at hline
  have hline2 := List.append_cancel_left hline
  have hline3 : "A B C".toList = name ++ ' ' :: value := by
    have : "A B C".toList ++ " \n".toList = (name ++ ' ' :: value) ++ " \n".toList := by
      simpa [List.append_assoc] using hline2
    exact List.append_cancel_right this
  have c1 := congrArg (List.count '=') hsplit
  have c2 := congrArg (List.count '=') hline3
  have e1 : List.count '=' "A=B=C".toList = 2 := by decide
  have e2 : List.count '=' "A B C".toList = 0 := by decide
  rw [e1] at c1
  rw [e2] at c2
  simp only [List.count_append, List.count_cons] at c1 c2
  simp at c1 c2
  omega

/-! ## Occurrences of the version keyword -/

theorem isPrefixOf_version_cons (x : Char) (s : Str) :
    "#version".toList.isPrefixOf (x :: s) = (decide (x = '#') && "version".toList.isPrefixOf s) := by
  have h : "#version".toList = '#' :: "version".toList := rfl
  rw [h, List.isPrefixOf]
  by_cases hx : x = '#'
  · subst hx; simp
  · have : ('#' == x) = false := by
      simp only [beq_eq_false_iff_ne, ne_eq]
      exact fun e => hx e.symm
    simp [this, hx]

theorem count_cons_ne (x : Char) (s : Str) (hx : x ≠ '#') :
    countOccurrences "#version".toList (x :: s) = countOccurrences "#version".toList s := by
  rw [countOccurrences, isPrefixOf_version_cons]
  simp [hx]

theorem count_cons_next (x : Char) (s : Str) (hs : "version".toList.isPrefixOf s = false) :
    countOccurrences "#version".toList (x :: s) = countOccurrences "#version".toList s := by
  rw [countOccurrences, isPrefixOf_version_cons, hs]
  simp

theorem count_version_append (s : Str) :
    countOccurrences "#version".toList ("#version".toList ++ s) =
      1 + countOccurrences "#version".toList s := by
  have h : "#version".toList ++ s = '#' :: 'v' :: 'e' :: 'r' :: 's' :: 'i' :: 'o' :: 'n' :: s := rfl
  rw [h, countOccurrences, isPrefixOf_version_cons]
  have hp : "version".toList.isPrefixOf ('v' :: 'e' :: 'r' :: 's' :: 'i' :: 'o' :: 'n' :: s) = true := by
    simp [List.isPrefixOf]
  rw [hp]
  simp only [decide_True, Bool.and_self, if_true]
  repeat rw [count_cons_ne _ _ (by decide)]

theorem count_append_no_hash (a s : Str) (ha : ∀ x ∈ a, x ≠ '#') :
    countOccurrences "#version".toList (a ++ s) = countOccurrences "#version".toList s := by
  induction a with
  | nil => rfl
  | cons x xs ih =>
    rw [List.cons_append, count_cons_ne _ _ (ha x (List.mem_cons_self _ _))]
    exact ih (fun y hy => ha y (List.mem_cons_of_mem _ hy))

theorem count_append_hashSafe (a s : Str) (ha : hashSafe a = true) :
    countOccurrences "#version".toList (a ++ s) = countOccurrences "#version".toList s := by
  induction a with
  | nil => rfl
  | cons x xs ih =>
    cases xs with
    | nil =>
      simp only [hashSafe, decide_eq_true_eq] at ha
      exact count_cons_ne _ _ ha
    | cons d rest =>
      simp only [hashSafe, Bool.and_eq_true, Bool.or_eq_true, decide_eq_true_eq] at ha
      have hrest := ih ha.2
      rw [List.cons_append]
      rcases ha.1 with hx | hd
      · rw [count_cons_ne _ _ hx]; exact hrest
      · rw [count_cons_next]
        · exact hrest
        · have hv : "version".toList = 'v' :: "ersion".toList := rfl
          rw [hv, List.cons_append, List.isPrefixOf]
          have : ('v' == d) = false := by
            simp only [beq_eq_false_iff_ne, ne_eq]
            exact fun e => hd e.symm
          simp [this]

theorem count_le_append_left (a s : Str) :
    countOccurrences "#version".toList s ≤ countOccurrences "#version".toList (a ++ s) := by
  induction a with
  | nil => exact Nat.le_refl _
  | cons x xs ih =>
    rw [List.cons_append, countOccurrences]
    omega

theorem isPrefixOf_append_right (p t s : Str) (h : p.isPrefixOf t = true) :
    p.isPrefixOf (t ++ s) = true := by
  rw [List.isPrefixOf_iff_prefix] at h ⊢
  exact List.IsPrefix.trans h (List.prefix_append t s)

theorem count_le_append_right (t s : Str) :
    countOccurrences "#version".toList t ≤ countOccurrences "#version".toList (t ++ s) := by
  induction t with
  | nil =>
    have : countOccurrences "#version".toList [] = 0 := by decide
    rw [this]
    exact Nat.zero_le _
  | cons x xs ih =>
    rw [List.cons_append, countOccurrences, countOccurrences]
    by_cases hp : "#version".toList.isPrefixOf (x :: xs) = true
    · have := isPrefixOf_append_right _ (x :: xs) s hp
      rw [List.cons_append] at this
      rw [hp, this]
      simp only [if_true]
      omega
    · have hp2 : "#version".toList.isPrefixOf (x :: xs) = false :=
        Bool.eq_false_iff.mpr hp
      rw [hp2]
      simp only [Bool.false_eq_true, if_false]
      omega

theorem count_infix_zero (a t s : Str)
    (h : countOccurrences "#version".toList (a ++ t ++ s) = 0) :
    countOccurrences "#version".toList t = 0 := by
  have h1 := count_le_append_left a (t ++ s)
  have h2 := count_le_append_right t s
  rw [List.append_assoc] at h
  omega

/-- A pattern that starts before a separator it does not contain cannot run across it. -/
theorem isPrefixOf_append_sep (p : Str) :
    ∀ (a : Str) (c : Char) (s : Str), p.isPrefixOf (a ++ c :: s) = true →
      p.isPrefixOf a = true ∨ c ∈ p := by
  induction p with
  | nil => intro a c s _; left; cases a <;> rfl
  | cons q qs ih =>
    intro a c s h
    cases a with
    | nil =>
      right
      simp only [List.nil_append, List.isPrefixOf, Bool.and_eq_true, beq_iff_eq] at h
      rw [h.1]
      exact List.mem_cons_self _ _
    | cons y ys =>
      simp only [List.cons_append, List.isPrefixOf, Bool.and_eq_true, beq_iff_eq] at h
      rcases ih ys c s h.2 with h1 | h1
      · left
        simp only [List.isPrefixOf, Bool.and_eq_true, beq_iff_eq]
        exact ⟨h.1, h1⟩
      · right
        exact List.mem_cons_of_mem _ h1

theorem count_append_space (a s : Str) (h : countOccurrences "#version".toList a = 0) :
    countOccurrences "#version".toList (a ++ ' ' :: s) = countOccurrences "#version".toList s := by
  induction a with
  | nil => exact count_cons_ne _ _ (by decide)
  | cons x xs ih =>
    rw [countOccurrences] at h
    have hxs : countOccurrences "#version".toList xs = 0 := by omega
    have hnp : "#version".toList.isPrefixOf (x :: xs) = false := by
      apply Bool.eq_false_iff.mpr
      intro hc
      rw [hc] at h
      simp at h
    have hnp2 : "#version".toList.isPrefixOf (x :: xs ++ ' ' :: s) = false := by
      apply Bool.eq_false_iff.mpr
      intro hc2
      rcases isPrefixOf_append_sep _ _ _ _ hc2 with h1 | h1
      · rw [h1] at hnp; exact Bool.noConfusion hnp
      · exact absurd h1 (by decide)
    rw [List.cons_append, countOccurrences]
    rw [List.cons_append] at hnp2
    rw [hnp2, ih hxs]
    simp

theorem isPrefixOf_Replaced (p : Str) (hp : ' ' ∉ p) :
    ∀ s : Str, p.isPrefixOf (Replaced s '=' ' ') = true → p.isPrefixOf s = true := by
  induction p with
  | nil => intro s _; cases s <;> rfl
  | cons q qs ih =>
    intro s h
    have hq : q ≠ ' ' := fun e => hp (e ▸ List.mem_cons_self _ _)
    have hqs : ' ' ∉ qs := fun hm => hp (List.mem_cons_of_mem _ hm)
    cases s with
    | nil => simp [Replaced, List.isPrefixOf] at h
    | cons y ys =>
      have hcons : Replaced (y :: ys) '=' ' ' =
          (if y = '=' then ' ' else y) :: Replaced ys '=' ' ' := by
        simp [Replaced]
      rw [hcons] at h
      simp only [List.isPrefixOf, Bool.and_eq_true, beq_iff_eq] at h ⊢
      obtain ⟨h1, h2⟩ := h
      refine ⟨?_, ih hqs ys h2⟩
      by_cases hy : y = '='
      · rw [if_pos hy] at h1
        exact absurd h1 hq
      · rw [if_neg hy] at h1
        exact h1

theorem count_Replaced_zero (s : Str) (h : countOccurrences "#version".toList s = 0) :
    countOccurrences "#version".toList (Replaced s '=' ' ') = 0 := by
  induction s with
  | nil => exact h
  | cons x xs ih =>
    rw [countOccurrences] at h
    have hxs : countOccurrences "#version".toList xs = 0 := by omega
    have hnp : "#version".toList.isPrefixOf (x :: xs) = false := by
      apply Bool.eq_false_iff.mpr
      intro hc
      rw [hc] at h
      simp at h
    have hnp2 : "#version".toList.isPrefixOf (Replaced (x :: xs) '=' ' ') = false := by
      apply Bool.eq_false_iff.mpr
      intro hc2
      have := isPrefixOf_Replaced _ (by decide) _ hc2
      rw [this] at hnp
      exact Bool.noConfusion hnp
    have hcons : Replaced (x :: xs) '=' ' ' =
        (if x = '=' then ' ' else x) :: Replaced xs '=' ' ' := by
      simp [Replaced]
    rw [hcons] at hnp2 ⊢
    rw [countOccurrences, hnp2, ih hxs]
    simp

theorem SplitLoop_token_infix (separator : Char) (s : Str) :
    ∀ (cur t : Str), t ∈ SplitLoop separator s cur → ∃ a b, cur ++ s = a ++ t ++ b := by
  induction s with
  | nil =>
    intro cur t ht
    simp only [SplitLoop] at ht
    split at ht
    · simp only [List.mem_singleton] at ht
      subst ht
      exact ⟨[], [], by simp⟩
    · simp at ht
  | cons c cs ih =>
    intro cur t ht
    simp only [SplitLoop] at ht
    split at ht
    · split at ht
      · rcases List.mem_cons.mp ht with h | h
        · subst h
          exact ⟨[], c :: cs, by simp⟩
        · obtain ⟨a, b, hab⟩ := ih [] t h
          refine ⟨cur ++ c :: a, b, ?_⟩
          simp only [List.nil_append] at hab
          simp [hab, List.append_assoc]
      · obtain ⟨a, b, hab⟩ := ih [] t ht
        refine ⟨cur ++ c :: a, b, ?_⟩
        simp only [List.nil_append] at hab
        simp [hab, List.append_assoc]
    · obtain ⟨a, b, hab⟩ := ih (cur ++ [c]) t ht
      refine ⟨a, b, ?_⟩
      rw [← hab]
      simp [List.append_assoc]

theorem count_token_zero (defines t : Str)
    (hdef : countOccurrences "#version".toList defines = 0) (ht : t ∈ defineTokens defines) :
    countOccurrences "#version".toList t = 0 := by
  rw [← Split_eq_defineTokens] at ht
  obtain ⟨a, b, hab⟩ := SplitLoop_token_infix ' ' defines [] t ht
  rw [List.nil_append] at hab
  rw [hab] at hdef
  exact count_infix_zero a t b hdef

theorem count_defineString (t s : Str) (ht : countOccurrences "#version".toList t = 0) :
    countOccurrences "#version".toList (defineString t ++ s) =
      countOccurrences "#version".toList s := by
  have h : defineString t ++ s =
      "#define ".toList ++ (Replaced t '=' ' ' ++ ' ' :: ('\n' :: s)) := by
    simp [defineString, List.append_assoc]
  rw [h, count_append_hashSafe _ _ (by decide), count_append_space _ _ (count_Replaced_zero t ht),
    count_cons_ne _ _ (by decide)]

theorem count_define_block (tokens : List Str) (s : Str)
    (h : ∀ t ∈ tokens, countOccurrences "#version".toList t = 0) :
    countOccurrences "#version".toList ((tokens.map defineString).flatten ++ s) =
      countOccurrences "#version".toList s := by
  induction tokens with
  | nil => rfl
  | cons t ts ih =>
    simp only [List.map_cons, List.flatten_cons, List.append_assoc]
    rw [count_defineString _ _ (h t (List.mem_cons_self _ _))]
    exact ih (fun u hu => h u (List.mem_cons_of_mem _ hu))

theorem digitChar_ne_hash (n : Nat) (h : n < 10) : Nat.digitChar n ≠ '#' := by
  interval_cases n <;> decide

theorem toDigitsCore_no_hash (fuel : Nat) :
    ∀ (n : Nat) (ds : List Char), (∀ x ∈ ds, x ≠ '#') →
      ∀ x ∈ Nat.toDigitsCore 10 fuel n ds, x ≠ '#' := by
  induction fuel with
  | zero => intro n ds hds; simpa [Nat.toDigitsCore] using hds
  | succ f ih =>
    intro n ds hds
    have hcons : ∀ x ∈ Nat.digitChar (n % 10) :: ds, x ≠ '#' := by
      intro x hx
      rcases List.mem_cons.mp hx with h | h
      · rw [h]; exact digitChar_ne_hash _ (Nat.mod_lt _ (by decide))
      · exact hds x h
    simp only [Nat.toDigitsCore]
    split
    · exact hcons
    · exact ih _ _ hcons

theorem repr_no_hash (n : Nat) : ∀ x ∈ (Nat.repr n).toList, x ≠ '#' := by
  have h : (Nat.repr n).toList = Nat.toDigits 10 n := rfl
  rw [h]
  exact toDigitsCore_no_hash _ _ _ (by simp)

theorem count_injectedDefines (cfg : BuildConfig) (type_ : ShaderType) (maxBones : Nat)
    (defines_ s : Str) (hdef : countOccurrences "#version".toList defines_ = 0) :
    countOccurrences "#version".toList (injectedDefines cfg type_ maxBones defines_ ++ s) =
      countOccurrences "#version".toList s := by
  have h1 : hashSafe (if cfg.DESKTOP_GRAPHICS = true then "#define DESKTOP_GRAPHICS\n".toList
      else if cfg.MOBILE_GRAPHICS = true then "#define MOBILE_GRAPHICS\n".toList else []) = true := by
    split
    · decide
    · split <;> decide
  have h2 : hashSafe (if type_ = ShaderType.VS then "#define COMPILEVS\n".toList
      else "#define COMPILEPS\n".toList) = true := by
    split <;> decide
  have h3 : hashSafe (if (cfg.RPI && decide (type_ = ShaderType.VS)) = true then
      "#define RPI\n".toList else []) = true := by
    split <;> decide
  have h4 : hashSafe (if cfg.EMSCRIPTEN = true then "#define WEBGL\n".toList else []) = true := by
    split <;> decide
  simp only [injectedDefines, List.append_assoc]
  rw [count_append_hashSafe _ _ h1, count_append_hashSafe _ _ h2,
    count_append_hashSafe _ _ (by decide), count_append_no_hash _ _ (repr_no_hash maxBones),
    count_append_hashSafe _ _ (by decide),
    count_define_block _ _ (fun t ht => count_token_zero defines_ t hdef ht),
    count_append_hashSafe _ _ h3, count_append_hashSafe _ _ h4,
    count_append_hashSafe _ _ (by decide)]

theorem Find_append_hash (pre s : Str) (hpre : '#' ∉ pre) :
    Find '#' (pre ++ '#' :: s) = some pre.length := by
  induction pre with
  | nil => simp [Find]
  | cons x xs ih =>
    have hx : ¬ x = '#' := fun e => hpre (e ▸ List.mem_cons_self _ _)
    have hxs : '#' ∉ xs := fun hm => hpre (List.mem_cons_of_mem _ hm)
    simp [Find, hx, ih hxs]

theorem digits_split (post : Str) :
    ∃ d rest, post = d ++ rest ∧ (∀ x ∈ d, IsDigit x = true) ∧
      (∀ x, rest.head? = some x → IsDigit x = false) := by
  induction post with
  | nil => exact ⟨[], [], rfl, by simp, by simp⟩
  | cons y ys ih =>
    by_cases hy : IsDigit y = true
    · obtain ⟨d, rest, hsplit, hd, hr⟩ := ih
      refine ⟨y :: d, rest, by simp [hsplit], ?_, hr⟩
      intro x hx
      rcases List.mem_cons.mp hx with h | h
      · rw [h]; exact hy
      · exact hd x h
    · refine ⟨[], y :: ys, rfl, by simp, ?_⟩
      intro x hx
      simp only [List.head?_cons, Option.some.injEq] at hx
      subst hx
      simpa using hy

theorem detectVersion_found (pre : Str) (c : Char) (d rest : Str) (hpre : '#' ∉ pre)
    (hdig : ∀ x ∈ d, IsDigit x = true)
    (hrest : ∀ x, rest.head? = some x → IsDigit x = false) :
    detectVersion (pre ++ "#version".toList ++ c :: (d ++ rest)) =
      (pre.length + 9 + d.length, "#version".toList ++ c :: d ++ "\n".toList) := by
  have hsrc : pre ++ "#version".toList ++ c :: (d ++ rest) =
      pre ++ '#' :: ("version".toList ++ c :: (d ++ rest)) := by
    simp [List.append_assoc]
  have hfind := Find_append_hash pre ("version".toList ++ c :: (d ++ rest)) hpre
  have hskip := skipDigits_digits d rest hdig hrest (pre.length + 9)
  have hdrop1 : (pre ++ '#' :: ("version".toList ++ c :: (d ++ rest))).drop (pre.length + 1) =
      "version".toList ++ c :: (d ++ rest) := by
    have : pre ++ '#' :: ("version".toList ++ c :: (d ++ rest)) =
        (pre ++ ['#']) ++ ("version".toList ++ c :: (d ++ rest)) := by simp
    rw [this]
    exact List.drop_left' (by simp)
  have hdrop9 : (pre ++ '#' :: ("version".toList ++ c :: (d ++ rest))).drop (pre.length + 9) =
      d ++ rest := by
    have : pre ++ '#' :: ("version".toList ++ c :: (d ++ rest)) =
        (pre ++ "#version".toList ++ [c]) ++ (d ++ rest) := by simp [List.append_assoc]
    rw [this]
    exact List.drop_left' (by simp)
  have hdrop0 : (pre ++ '#' :: ("version".toList ++ c :: (d ++ rest))).drop pre.length =
      ("#version".toList ++ c :: d) ++ rest := by
    have : pre ++ '#' :: ("version".toList ++ c :: (d ++ rest)) =
        pre ++ (("#version".toList ++ c :: d) ++ rest) := by simp [List.append_assoc]
    rw [this]
    exact List.drop_left' rfl
  have hlen : (pre ++ '#' :: ("version".toList ++ c :: (d ++ rest))).length =
      pre.length + 9 + d.length + rest.length := by
    simp; omega
  have hsub : Substring (pre ++ '#' :: ("version".toList ++ c :: (d ++ rest)))
      (pre.length + 1) 7 = "version".toList := by
    have hlt : pre.length + 1 < (pre ++ '#' :: ("version".toList ++ c :: (d ++ rest))).length := by
      rw [hlen]; omega
    rw [Substring, if_pos hlt, hdrop1]
    exact List.take_left' rfl
  have hwhole : Substring (pre ++ '#' :: ("version".toList ++ c :: (d ++ rest))) pre.length
      (pre.length + 9 + d.length - pre.length) = "#version".toList ++ c :: d := by
    have hlt : pre.length < (pre ++ '#' :: ("version".toList ++ c :: (d ++ rest))).length := by
      rw [hlen]; omega
    rw [Substring, if_pos hlt, hdrop0]
    exact List.take_left' (by simp; omega)
  rw [hsrc, detectVersion, hfind]
  simp only []
  rw [if_pos hsub]
  simp only [hdrop9, hskip, hwhole]

/-- Where the directive is found the version line is not duplicated: if the first '#' of the
source begins "#version" and at least one character follows the keyword, the source contains
"#version" exactly once and the defines string does not contain it, then the text assembled
by Create_OGL contains "#version" exactly once. -/
theorem version_not_duplicated (cfg : BuildConfig) (type_ : ShaderType) (maxBones : Nat)
    (defines_ pre post : Str) (c : Char) (hpre : '#' ∉ pre)
    (hsrc : countOccurrences "#version".toList (pre ++ "#version".toList ++ c :: post) = 1)
    (hdef : countOccurrences "#version".toList defines_ = 0) :
    ∃ text, assembleShaderCode cfg type_ maxBones defines_
        (pre ++ "#version".toList ++ c :: post) = some text ∧
      countOccurrences "#version".toList text = 1 := by
  obtain ⟨d, rest, hpost, hdig, hrest⟩ := digits_split post
  subst hpost
  have hdv := detectVersion_found pre c d rest hpre hdig hrest
  have hve : versionEnd (pre ++ "#version".toList ++ c :: (d ++ rest)) =
      pre.length + 9 + d.length := by
    simp only [versionEnd, hdv]
  have hpos : pre.length + 9 + d.length > 0 := by omega
  have hne0 : ¬ (pre.length + 9 + d.length = 0) := by omega
  have hcstr : cstrFrom (pre ++ "#version".toList ++ c :: (d ++ rest))
      (pre.length + 9 + d.length) = some (untilNUL rest) := by
    have hsplit : pre ++ "#version".toList ++ c :: (d ++ rest) =
        (pre ++ "#version".toList ++ c :: d) ++ rest := by simp [List.append_assoc]
    have hlen : pre.length + 9 + d.length ≤
        (pre ++ "#version".toList ++ c :: (d ++ rest)).length := by simp; omega
    have hdrop : (pre ++ "#version".toList ++ c :: (d ++ rest)).drop
        (pre.length + 9 + d.length) = rest := by
      rw [hsplit]
      exact List.drop_left' (by simp; omega)
    simp only [cstrFrom, hlen, if_true, hdrop]
  -- the part of the source behind the directive holds no further occurrence
  have hrest0 : countOccurrences "#version".toList (untilNUL rest) = 0 := by
    have h1 : pre ++ "#version".toList ++ c :: (d ++ rest) =
        pre ++ ("#version".toList ++ c :: (d ++ rest)) := by simp [List.append_assoc]
    rw [h1, count_append_no_hash _ _ (fun x hx e => hpre (e ▸ hx)), count_version_append,
      countOccurrences] at hsrc
    have h2 := count_le_append_left d rest
    obtain ⟨t, ht⟩ := untilNUL_append_rest rest
    have h3 := count_le_append_right (untilNUL rest) t
    rw [← ht] at h3
    omega
  -- no occurrence starts at the character behind the keyword
  have hhead : "version".toList.isPrefixOf
      (d ++ '\n' :: (injectedDefines cfg type_ maxBones defines_ ++ untilNUL rest)) = false := by
    have hv : "version".toList = 'v' :: "ersion".toList := rfl
    cases d with
    | nil => rw [hv]; simp [List.isPrefixOf]
    | cons x xs =>
      have hx : IsDigit x = true := hdig x (List.mem_cons_self _ _)
      have hxv : ('v' == x) = false := by
        simp only [beq_eq_false_iff_ne, ne_eq]
        intro e
        rw [← e] at hx
        exact absurd hx (by decide)
      rw [hv, List.cons_append, List.isPrefixOf, hxv]
      rfl
  have hdigits : ∀ x ∈ d, x ≠ '#' := by
    intro x hx e
    have := hdig x hx
    rw [e] at this
    exact absurd this (by decide)
  refine ⟨"#version".toList ++ c :: d ++ "\n".toList ++
    injectedDefines cfg type_ maxBones defines_ ++ untilNUL rest, ?_, ?_⟩
  · simp only [assembleShaderCode, assembleHeader_eq, hve, hpos, hne0, if_true, if_false, hdv,
      hcstr, Option.map_some']
  · have hshape : "#version".toList ++ c :: d ++ "\n".toList ++
        injectedDefines cfg type_ maxBones defines_ ++ untilNUL rest =
        "#version".toList ++
          c :: (d ++ '\n' :: (injectedDefines cfg type_ maxBones defines_ ++ untilNUL rest)) := by
      simp [List.append_assoc]
    rw [hshape, count_version_append, count_cons_next _ _ hhead,
      count_append_no_hash _ _ hdigits, count_cons_ne _ _ (by decide),
      count_injectedDefines _ _ _ _ _ hdef, hrest0]

/-- The source "#version 330\nfoo" with the defines "A=1 B": one version line. -/
theorem version_not_duplicated_witness :
    ('#' ∉ ([] : Str) ∧
      countOccurrences "#version".toList
        ([] ++ "#version".toList ++ ' ' :: "330\nfoo".toList) = 1 ∧
      countOccurrences "#version".toList "A=1 B".toList = 0) ∧
    (∃ text, assembleShaderCode desktopBuild ShaderType.VS 128 "A=1 B".toList
        ([] ++ "#version".toList ++ ' ' :: "330\nfoo".toList) = some text ∧
      countOccurrences "#version".toList text = 1) :=
  ⟨⟨by decide, by decide, by decide⟩,
   version_not_duplicated desktopBuild ShaderType.VS 128 "A=1 B".toList [] "330\nfoo".toList ' '
     (by decide) (by decide) (by decide)⟩

/-- C5 at the source "// pass #1\n#version 330\nfoo" with the defines "A=1 B": the source
contains "#version" once and the defines do not contain it, but the check for a version
define looks at the first '#' only, the one of the comment, finds none, and the assembled
text contains "#version" twice: the default "#version 150" and the directive of the
source. -/
theorem version_duplicated :
    countOccurrences "#version".toList "// pass #1\n#version 330\nfoo".toList = 1 ∧
    countOccurrences "#version".toList "A=1 B".toList = 0 ∧
    assembleShaderCode desktopBuild ShaderType.VS 128 "A=1 B".toList
        "// pass #1\n#version 330\nfoo".toList =
      some ("#version 150\n#define DESKTOP_GRAPHICS\n#define COMPILEVS\n".toList ++
        "#define MAXBONES 128\n#define A 1 \n#define B \n#define GL3\n".toList ++
        "// pass #1\n#version 330\nfoo".toList) ∧
    (assembleShaderCode desktopBuild ShaderType.VS 128 "A=1 B".toList
        "// pass #1\n#version 330\nfoo".toList).map (countOccurrences "#version".toList) =
      some 2 :=
  ⟨by decide, by decide, by decide, by decide⟩

/-! ## Resizing the index buffer -/

/-- C11: for every IndexBuffer state, every indexCount >= 0, every largeIndices and dynamic
flag and every outcome of the backend buffer creation, SetSize completes, and afterwards
GetIndexCount() is indexCount, GetIndexSize() is 4 if largeIndices and 2 otherwise,
IsDynamic() is dynamic, the shadow buffer is freshly allocated memory of
indexCount*indexSize bytes if the buffer is shadowed and indexCount > 0 (and absent
otherwise), and the return value is the result of Create(): with the OpenGL backend selected
that is the result of the backend buffer creation, false when it fails. -/
theorem SetSize_postconditions (junk : Nat → byte) (DV_OPENGL : Bool) (gapi : GAPI)
    (createdOGL : Bool) (b : IndexBuffer) (indexCount : Int) (largeIndices dynamic : Bool)
    (hcount : 0 ≤ indexCount) :
    ∃ b1, b.SetSize junk (IndexBuffer.Create DV_OPENGL gapi createdOGL) indexCount
        largeIndices dynamic = some (IndexBuffer.Create DV_OPENGL gapi createdOGL, b1) ∧
      b1.GetIndexCount = indexCount ∧
      b1.GetIndexSize = (if largeIndices then 4 else 2) ∧
      b1.IsDynamic = dynamic ∧
      b1.IsShadowed = b.IsShadowed ∧
      (b.IsShadowed = true → 0 < indexCount →
        b1.GetShadowData = some (newBytes junk (indexCount * b1.GetIndexSize).toNat) ∧
        ∃ data, b1.GetShadowData = some data ∧
          (data.length : Int) = indexCount * b1.GetIndexSize) ∧
      (¬ (b.IsShadowed = true ∧ 0 < indexCount) → b1.GetShadowData = none) ∧
      (DV_OPENGL = true → gapi = GAPI.GAPI_OPENGL →
        IndexBuffer.Create DV_OPENGL gapi createdOGL = createdOGL) := by
  have hpre : ¬ ¬ (indexCount ≥ 0) := by simpa using hcount
  have hunlock : b.Unlock.shadowed_ = b.shadowed_ := by
    unfold IndexBuffer.Unlock
    split <;> rfl
  simp only [IndexBuffer.SetSize, hpre, if_false, hunlock]
  refine ⟨_, rfl, rfl, rfl, rfl, rfl, ?_, ?_, ?_⟩
  · intro hsh hpos
    have hsh2 : b.shadowed_ = true := hsh
    have hne : indexCount ≠ 0 := by omega
    have hsz : (if largeIndices = true then (4 : Int) else 2) ≠ 0 := by
      cases largeIndices <;> decide
    have hmul : 0 ≤ indexCount * (if largeIndices = true then (4 : Int) else 2) := by
      cases largeIndices <;> simp <;> omega
    have hcond : b.shadowed_ = true ∧ indexCount ≠ 0 ∧
        (if largeIndices = true then (4 : Int) else 2) ≠ 0 := ⟨hsh2, hne, hsz⟩
    simp only [IndexBuffer.GetShadowData, IndexBuffer.GetIndexSize]
    rw [if_pos hcond]
    exact ⟨rfl, _, rfl, by rw [newBytes_length, Int.toNat_of_nonneg hmul]⟩
  · intro hnot
    have hcond : ¬ (b.shadowed_ = true ∧ indexCount ≠ 0 ∧
        (if largeIndices = true then (4 : Int) else 2) ≠ 0) := by
      rintro ⟨h1, h2, _⟩
      exact hnot ⟨h1, by omega⟩
    simp only [IndexBuffer.GetShadowData]
    rw [if_neg hcond]
  · intro h1 h2
    subst h1 h2
    simp [IndexBuffer.Create]

/-- C11 on a shadowed buffer of three 32-bit indices resized to five 16-bit indices while the
creation of the GPU buffer fails: false is returned, and the buffer holds five 2-byte indices
with a shadow buffer of ten bytes. -/
theorem SetSize_postconditions_witness :
    ((0 : Int) ≤ 5) ∧
    (∃ b1, (buffer32 [5, 2, 9]).SetSize (fun _ => 0)
        (IndexBuffer.Create true GAPI.GAPI_OPENGL false) 5 false true =
        some (IndexBuffer.Create true GAPI.GAPI_OPENGL false, b1) ∧
      b1.GetIndexCount = 5 ∧
      b1.GetIndexSize = (if false then 4 else 2) ∧
      b1.IsDynamic = true ∧
      b1.IsShadowed = (buffer32 [5, 2, 9]).IsShadowed ∧
      ((buffer32 [5, 2, 9]).IsShadowed = true → (0 : Int) < 5 →
        b1.GetShadowData = some (newBytes (fun _ => 0) ((5 : Int) * b1.GetIndexSize).toNat) ∧
        ∃ data, b1.GetShadowData = some data ∧
          (data.length : Int) = 5 * b1.GetIndexSize) ∧
      (¬ ((buffer32 [5, 2, 9]).IsShadowed = true ∧ (0 : Int) < 5) →
        b1.GetShadowData = none) ∧
      (true = true → GAPI.GAPI_OPENGL = GAPI.GAPI_OPENGL →
        IndexBuffer.Create true GAPI.GAPI_OPENGL false = false)) ∧
    ((buffer32 [5, 2, 9]).SetSize (fun _ => 0)
        (IndexBuffer.Create true GAPI.GAPI_OPENGL false) 5 false true).map
      (fun r => (r.1, r.2.indexCount_, r.2.indexSize_, r.2.dynamic_,
        r.2.shadowData_.map List.length)) = some (false, 5, 2, true, some 10) :=
  ⟨by decide,
   SetSize_postconditions (fun _ => 0) true GAPI.GAPI_OPENGL false
     (buffer32 [5, 2, 9]) 5 false true (by decide),
   by decide⟩

/-! ## The offset of the source remainder -/

theorem Find_some_split (c : Char) (s : Str) :
    ∀ v, Find c s = some v → ∃ pre post, s = pre ++ c :: post ∧ c ∉ pre ∧ pre.length = v := by
  induction s with
  | nil => intro v h; simp [Find] at h
  | cons x xs ih =>
    intro v h
    by_cases hx : x = c
    · subst hx
      simp only [Find, if_true, Option.some.injEq] at h
      exact ⟨[], xs, rfl, by simp, h⟩
    · simp only [Find, if_neg hx, Option.map_eq_some'] at h
      obtain ⟨w, hw, hv⟩ := h
      obtain ⟨pre, post, hsplit, hpre, hlen⟩ := ih w hw
      refine ⟨x :: pre, post, by simp [hsplit], ?_, by simp [hlen, hv]⟩
      intro hm
      rcases List.mem_cons.mp hm with h1 | h1
      · exact hx h1.symm
      · exact hpre h1

theorem versionEnd_bare (pre : Str) (hpre : '#' ∉ pre) :
    versionEnd (pre ++ "#version".toList) = pre.length + 9 := by
  have hsrc : pre ++ "#version".toList = pre ++ '#' :: "version".toList := rfl
  have hfind := Find_append_hash pre "version".toList hpre
  have hdrop1 : (pre ++ '#' :: "version".toList).drop (pre.length + 1) = "version".toList := by
    have : pre ++ '#' :: "version".toList = (pre ++ ['#']) ++ "version".toList := by simp
    rw [this]
    exact List.drop_left' (by simp)
  have hdrop9 : (pre ++ '#' :: "version".toList).drop (pre.length + 9) = [] := by
    apply List.drop_eq_nil_of_le
    simp
  have hsub : Substring (pre ++ '#' :: "version".toList) (pre.length + 1) 7 =
      "version".toList := by
    have hlt : pre.length + 1 < (pre ++ '#' :: "version".toList).length := by simp
    rw [Substring, if_pos hlt, hdrop1]
    rfl
  rw [hsrc, versionEnd, detectVersion, hfind]
  simp only []
  rw [if_pos hsub]
  simp only [hdrop9, skipDigits]

/-- The offset `verEnd` leaves the source exactly when the source ends right after the
keyword of its first '#': then it is one past the terminator. In every other case the
remainder read at `verEnd` is a suffix of the source. -/
theorem versionEnd_gt_length_iff (s : Str) :
    s.length < versionEnd s ↔ ∃ pre, '#' ∉ pre ∧ s = pre ++ "#version".toList := by
  constructor
  · intro hgt
    unfold versionEnd detectVersion at hgt
    cases hfind : Find '#' s with
    | none => rw [hfind] at hgt; simp at hgt
    | some v =>
      rw [hfind] at hgt
      simp only [] at hgt
      by_cases hsub : Substring s (v + 1) 7 = "version".toList
      · obtain ⟨pre, post, hsplit, hpre, hlen⟩ := Find_some_split '#' s v hfind
        subst hlen
        have hdrop1 : s.drop (pre.length + 1) = post := by
          have : s = (pre ++ ['#']) ++ post := by simp [hsplit]
          rw [this]
          exact List.drop_left' (by simp)
        have htake : post.take 7 = "version".toList := by
          unfold Substring at hsub
          split at hsub
          · rw [hdrop1] at hsub; exact hsub
          · exact absurd hsub.symm (by decide)
        have hpost : post = "version".toList ++ post.drop 7 := by
          conv_lhs => rw [← List.take_append_drop 7 post, htake]
        cases hrest : post.drop 7 with
        | nil =>
          refine ⟨pre, hpre, ?_⟩
          rw [hsplit, hpost, hrest]
          rfl
        | cons c post3 =>
          exfalso
          obtain ⟨d, rest, hd, hdig, hrestd⟩ := digits_split post3
          have hs : s = pre ++ "#version".toList ++ c :: (d ++ rest) := by
            rw [hsplit, hpost, hrest, hd]
            simp [List.append_assoc]
          have hdv := detectVersion_found pre c d rest hpre hdig hrestd
          rw [← hs] at hdv
          have hve : versionEnd s = pre.length + 9 + d.length := by
            simp only [versionEnd, hdv]
          have hlen : s.length = pre.length + 9 + d.length + rest.length := by
            rw [hs]; simp; omega
          have hgt2 : s.length < versionEnd s := by
            unfold versionEnd detectVersion
            rw [hfind]
            simp only []
            exact hgt
          omega
      · rw [if_neg hsub] at hgt
        simp at hgt
  · rintro ⟨pre, hpre, rfl⟩
    rw [versionEnd_bare pre hpre]
    simp

/-- C12 at the source "#version": the first '#' is at offset 0 and is followed by "version",
so verEnd = 0 + 9 = 9, while the source has 8 characters and its terminator sits at offset 8.
The read at c_str() + 9 starts outside the source string, and no text is assembled. -/
theorem versionEnd_past_terminator :
    "#version".toList.length = 8 ∧
    Find '#' "#version".toList = some 0 ∧
    Substring "#version".toList (0 + 1) 7 = "version".toList ∧
    versionEnd "#version".toList = 9 ∧
    ¬ (versionEnd "#version".toList ≤ "#version".toList.length) ∧
    cstrFrom "#version".toList (versionEnd "#version".toList) = none ∧
    assembleShaderCode desktopBuild ShaderType.VS 128 [] "#version".toList = none ∧
    bareVersionVariation.Create_OGL desktopBuild 128 false workingDriver idleGraphics = none :=
  ⟨by decide, by decide, by decide, by decide, by decide, by decide, by decide, by decide⟩

end dviglo
